import Mathlib

/-!
# commitgpt: a shallow embedding of `main.go`

The development embeds the text-processing functions of `main.go`
(`TransformText`, `formatWarning`, `formatPlain`, the assembling part of
`makeAPICall`, `extractMessages`, `handleVerboseContent`) and proves
properties of them.

Conventions of the embedding:

* a Go `byte` is a `Nat`; a Go `string` / `[]byte` is a `List Byte`
  (`Str`).  No arithmetic is done on bytes, they are only compared and
  copied;
* `ascii "..."` is the byte string of an ASCII literal of the source;
* a run-time panic of the Go code (nil pointer dereference) is the value
  `none` of an `Option` result;
* the external collaborators (the `pandoc` process, `fmt`'s rendering of a
  float) are fields of an environment `Env`.
-/

set_option autoImplicit false
set_option maxRecDepth 100000

namespace CommitGPT

/-! ## Bytes and strings -/

/-- A Go `byte`. -/
abbrev Byte := Nat

/-- A Go `string` (or `[]byte`): a sequence of bytes. -/
abbrev Str := List Byte

/-- The bytes of an ASCII string literal. -/
def ascii (s : String) : Str := s.toList.map Char.toNat

/-- The newline byte `'\n'`. -/
def NL : Byte := 10

/-- The colon byte `':'`. -/
def COLON : Byte := 58

/-- Model of `strings.Split(s, "\n")`: the substrings between the newline
bytes; the empty string gives one empty line. -/
def splitLines : Str → List Str
  | [] => [[]]
  | c :: cs =>
    if c = NL then [] :: splitLines cs
    else
      match splitLines cs with
      | [] => [[c]]
      | l :: ls => (c :: l) :: ls

/-- Model of `strings.Join(ls, "\n")`. -/
def joinLines : List Str → Str
  | [] => []
  | [l] => l
  | l :: l2 :: ls => l ++ NL :: joinLines (l2 :: ls)

/-- Model of `strings.TrimSuffix(s, "\n")`: one trailing newline byte is
removed when there is one. -/
def trimSuffixNL (s : Str) : Str :=
  if s.getLast? = some NL then s.dropLast else s

/-- Model of `strings.HasPrefix(s, p)`. -/
def hasPrefix (s p : Str) : Bool := p.isPrefixOf s

/-- Model of `strings.ReplaceAll(s, "\n", "\n# ")`. -/
def replaceNL : Str → Str
  | [] => []
  | c :: cs => if c = NL then NL :: 35 :: 32 :: replaceNL cs else c :: replaceNL cs

/-! ## `io.Reader` and the pipe of `TransformText` -/

/-- An error value returned by a `Read` other than `io.EOF`. -/
abbrev IOError := Nat

/-- A source `io.Reader`: the chunks it delivers with a nil error, one per
`Read` (a chunk longer than the buffer passed to `Read` is delivered over
several reads); how it ends once the chunks are used up: `none` is `io.EOF`,
`some e` another error; and the bytes `last` that it returns together with
that end, in the same `Read`.  With `last` empty the end comes in a read of
its own that returns no byte, as for `strings.Reader`; with `last` not empty
the final bytes and the end come together, as for `iotest.DataErrReader`. -/
structure Reader where
  chunks : List (List Byte)
  final : Option IOError
  last : List Byte

/-- The result `(n, err)` of one call of `Read`: `data` is `n` bytes with a
nil error, `eof` is `n` bytes (possibly none) with `io.EOF`, `error` is `n`
bytes (possibly none) with another error. -/
inductive ReadResult where
  | data (bs : List Byte) (rest : Reader)
  | eof (bs : List Byte)
  | error (bs : List Byte) (e : IOError)

/-- The call `r.Read(p)` with `len(p) = k`. -/
def Reader.Read (r : Reader) (k : Nat) : ReadResult :=
  match r.chunks with
  | [] =>
    if r.last.length ≤ k then
      match r.final with
      | none => .eof r.last
      | some e => .error r.last e
    else .data (r.last.take k) ⟨[], r.final, r.last.drop k⟩
  | c :: cs =>
    if c.length ≤ k then .data c ⟨cs, r.final, r.last⟩
    else .data (c.take k) ⟨c.drop k :: cs, r.final, r.last⟩

/-- The reader `strings.NewReader(s)`: the whole string is available at once,
and the end is reported by a read of its own that returns no byte (at once
for an empty string). -/
def stringsNewReader (s : Str) : Reader :=
  ⟨if s = [] then [] else [s], none, []⟩

/-- A bound on the number of reads a reader can serve with a non-empty
buffer. -/
def Reader.size (r : Reader) : Nat :=
  (r.chunks.map fun c => c.length + 1).sum + r.last.length

/-- What the consumer of the pipe sees: the bytes written, in order, and the
way the stream ends (`none`: end of stream, `some e`: `CloseWithError(e)`).
The consumer is taken to read the pipe to its end. -/
structure Stream where
  bytes : List Byte
  err : Option IOError
deriving DecidableEq, Repr

/-- The test `strings.ContainsRune("*+-", rune(b))`. -/
def isBullet (b : Byte) : Bool := b = 42 || b = 43 || b = 45

/-- The inner `for j` loop of `TransformText` over the bytes just read.
`lookback` is the pair `lookback[0], lookback[1]`; `pending` is `buf[i:j]`,
the bytes read but not yet written; `written` is everything written to the
pipe so far.  At the end of the buffer `buf[i:n]` is written. -/
def scanBuf : List Byte → Byte × Byte → List Byte → List Byte → List Byte × (Byte × Byte)
  | [], lookback, pending, written => (written ++ pending, lookback)
  | b :: rest, lookback, pending, written =>
    if lookback = (COLON, NL) ∧ isBullet b = true then
      scanBuf rest (lookback.2, b) [b] (written ++ (pending ++ [NL]))
    else
      scanBuf rest (lookback.2, b) (pending ++ [b]) written

/-- The size of `buf` in `TransformText`. -/
def bufSize : Nat := 1024

/-- The outer `for` loop of `TransformText`: read into `buf`, scan, until
the reader ends.  When `Read` returns an error, `io.EOF` included, the loop
is left at once: the bytes returned by that same `Read` are not scanned and
not written.  The first argument bounds the number of reads; the bound
`r.size + 1` passed by `TransformText` is never reached
(`transformLoop_shape`). -/
def transformLoop : Nat → Reader → Byte × Byte → List Byte → Stream
  | 0, _, _, written => ⟨written, none⟩
  | fuel + 1, r, lookback, written =>
    match r.Read bufSize with
    | .eof _ => ⟨written, none⟩
    | .error _ e => ⟨written, some e⟩
    | .data buf rest =>
      let res := scanBuf buf lookback [] written
      transformLoop fuel rest res.2 res.1

/-- The function `TransformText`: the stream read from the returned pipe.
`lookback` starts as two zero bytes; the first read fills it, a second read
completes it when the first gave one byte only.  When one of these two reads
returns an error, `io.EOF` included, the function returns before anything is
written, whatever bytes the reads returned. -/
def TransformText (r : Reader) : Stream :=
  match r.Read 2 with
  | .eof _ => ⟨[], none⟩
  | .error _ e => ⟨[], some e⟩
  | .data bs r1 =>
    let l0 := bs.getD 0 0
    let l1 := bs.getD 1 0
    if bs.length = 1 then
      match r1.Read 1 with
      | .eof _ => ⟨[], none⟩
      | .error _ e => ⟨[], some e⟩
      | .data bs2 r2 =>
        let l1 := bs2.getD 0 0
        transformLoop (r2.size + 1) r2 (l0, l1) [l0, l1]
    else
      transformLoop (r1.size + 1) r1 (l0, l1) [l0, l1]

/-! ## The renderers -/

/-- The external collaborators of the program. -/
structure Env where
  /-- The process `pandoc --columns=<n> -t gfm`: from the column number and
  the bytes on its standard input to its standard output, or `none` when
  running it fails. -/
  pandoc : Nat → Str → Option Str
  /-- The rendering by `%.4f` of `float64(tokens) * price / 1e6`. -/
  sprintfCost : Int → ℚ → Str

/-- The function `formatWarning`. -/
def formatWarning (env : Env) (warning content : Str) : Str :=
  match env.pandoc 70 (TransformText (stringsNewReader content)).bytes with
  | none => []
  | some out =>
    let formattedWarning := replaceNL out
    ascii "# **" ++ warning ++ ascii "**\n# \n# " ++ formattedWarning ++ ascii "\n"

/-- The function `formatPlain`. -/
def formatPlain (env : Env) (content : Str) : Str :=
  match env.pandoc 72 (TransformText (stringsNewReader content)).bytes with
  | none => []
  | some out => out ++ ascii "\n"

/-! ## `extractMessages` -/

/-- The four keys of the map `parts`. -/
inductive Key where
  | sensitiveInfoWarning
  | largeFilesWarning
  | thought
  | commitMessage
deriving DecidableEq, Repr

/-- The opening tag line of a section. -/
def openTag : Key → Str
  | .sensitiveInfoWarning => ascii "<sensitive-info-warning>"
  | .largeFilesWarning => ascii "<large-files-warning>"
  | .thought => ascii "<thinkthrough>"
  | .commitMessage => ascii "<commit-message>"

/-- The closing tag line of a section. -/
def closeTag : Key → Str
  | .sensitiveInfoWarning => ascii "</sensitive-info-warning>"
  | .largeFilesWarning => ascii "</large-files-warning>"
  | .thought => ascii "</thinkthrough>"
  | .commitMessage => ascii "</commit-message>"

/-- The state of the loop of `extractMessages`: the map `parts` (a key that
was never assigned reads as the zero `strings.Builder`, whose string is
empty) and the pointer `builder` (`none` is `nil`, `some b` a builder holding
`b`). -/
structure ExtractState where
  parts : Key → Str
  builder : Option Str

/-- The assignment `parts[k] = *builder; builder = nil`, which panics when
`builder` is `nil`. -/
def commitPart (st : ExtractState) (k : Key) : Option ExtractState :=
  match st.builder with
  | none => none
  | some b => some ⟨Function.update st.parts k b, none⟩

/-- One iteration of the loop of `extractMessages`, `none` when it
panics. -/
def extractStep (st : ExtractState) (line : Str) : Option ExtractState :=
  if line = ascii "<sensitive-info-warning>" then some ⟨st.parts, some []⟩
  else if line = ascii "</sensitive-info-warning>" then commitPart st .sensitiveInfoWarning
  else if line = ascii "<large-files-warning>" then some ⟨st.parts, some []⟩
  else if line = ascii "</large-files-warning>" then commitPart st .largeFilesWarning
  else if line = ascii "<thinkthrough>" then some ⟨st.parts, some []⟩
  else if line = ascii "</thinkthrough>" then commitPart st .thought
  else if line = ascii "<commit-message>" then some ⟨st.parts, some []⟩
  else if line = ascii "</commit-message>" then commitPart st .commitMessage
  else
    match st.builder with
    | some b => some ⟨st.parts, some (b ++ line ++ [NL])⟩
    | none => some st

/-- The loop of `extractMessages` over the lines. -/
def extractLoop : List Str → ExtractState → Option ExtractState
  | [], st => some st
  | line :: rest, st =>
    match extractStep st line with
    | none => none
    | some st1 => extractLoop rest st1

/-- The four strings returned by `extractMessages`, in the order of the
source: sensitive warning, large files warning, thought, commit message. -/
structure Messages where
  sensitiveWarn : Str
  largeFilesWarn : Str
  thought : Str
  commitMessage : Str
deriving DecidableEq, Repr

/-- The function `extractMessages`; `none` when it panics. -/
def extractMessages (apiResponse : Str) : Option Messages :=
  match extractLoop (splitLines apiResponse) ⟨fun _ => [], none⟩ with
  | none => none
  | some st =>
    some {
      sensitiveWarn := trimSuffixNL (st.parts .sensitiveInfoWarning)
      largeFilesWarn := trimSuffixNL (st.parts .largeFilesWarning)
      thought := trimSuffixNL (st.parts .thought)
      commitMessage := trimSuffixNL (st.parts .commitMessage) }

/-! ## `makeAPICall`, from the decoded response on -/

/-- The value of `MillionInputTokensUnitPrice`, 0.25. -/
def MillionInputTokensUnitPrice : ℚ := 1 / 4

/-- The value of `MillionOutputTokensUnitPrice`, 1.25. -/
def MillionOutputTokensUnitPrice : ℚ := 5 / 4

/-- The decoded body of a response with status 200 (`apiResponse` in
`makeAPICall`); `Content` holds the `text` of each content item. -/
structure ApiResponse where
  Id : Str
  Content : List Str
  StopReason : Str
  InputTokens : Int
  OutputTokens : Int

/-- The result of `makeAPICall`. -/
inductive CallResult where
  /-- A document is returned with a nil error. -/
  | document (doc : Str)
  /-- The empty string is returned with an error of this message. -/
  | failure (msg : Str)
  /-- The call panics. -/
  | panic
deriving DecidableEq, Repr

/-- The rendering of an `int` by `%d`. -/
def sprintfInt (n : Int) : Str := ascii (toString n)

/-- The separator block written by `makeAPICall` between the commit message
and the thought: the eight `WriteString` calls in the order of the source. -/
def separatorBlock (env : Env) (resp : ApiResponse) : Str :=
  ascii "# ------------------------ >8 ------------------------\n"
  ++ ascii "# Do not modify or remove the line above.\n"
  ++ ascii "# Everything below it will be ignored.\n"
  ++ ascii "#\n"
  ++ (ascii "# API ID: " ++ resp.Id ++ ascii "\n")
  ++ (ascii "# Input tokens: " ++ sprintfInt resp.InputTokens ++ ascii " ($"
      ++ env.sprintfCost resp.InputTokens MillionInputTokensUnitPrice ++ ascii ")\n")
  ++ (ascii "# Output tokens: " ++ sprintfInt resp.OutputTokens ++ ascii " ($"
      ++ env.sprintfCost resp.OutputTokens MillionOutputTokensUnitPrice ++ ascii ")\n")
  ++ ascii "#\n"

/-- The function `makeAPICall` from the decoded body of a 200 response on:
the checks of the stop reason and of the content, the extraction, and the
assembly of the document in the builder `response`. -/
def makeAPICall (env : Env) (resp : ApiResponse) : CallResult :=
  if resp.StopReason ≠ ascii "end_turn" then
    .failure (ascii "unexpected stop reason: " ++ resp.StopReason)
  else
    match resp.Content with
    | [] => .failure (ascii "no response from model")
    | text :: _ =>
      if text = [] then .failure (ascii "no response from model")
      else
        match extractMessages text with
        | none => .panic
        | some m =>
          let response : Str := []
          let response :=
            if m.sensitiveWarn ≠ [] then
              response ++ formatWarning env (ascii "Sensitive Information Warning") m.sensitiveWarn
            else response
          let response :=
            if m.largeFilesWarn ≠ [] then
              response ++ formatWarning env (ascii "Large Files Warning") m.largeFilesWarn
            else response
          let response :=
            if m.commitMessage ≠ [] then response ++ formatPlain env m.commitMessage
            else response
          let response := response ++ separatorBlock env resp
          let response :=
            if m.thought ≠ [] then
              response
                ++ ascii "# Below is the thought process that created the above message.\n"
                ++ formatPlain env m.thought
                ++ ascii "\n"
            else response
          .document (trimSuffixNL response)

/-! ## `handleVerboseContent` -/

/-- The prefix looked for by the first loop of `handleVerboseContent`. -/
def helpHeader : Str := ascii "# Please enter the commit message for your changes."

/-- The scissors line. -/
def scissors : Str := ascii "# ------------------------ >8 ------------------------"

/-- The first loop of `handleVerboseContent`.  The argument is `lines[i:]`,
the result is `lines[i:]` for the value of `i` at the exit of the loop: the
lines from the first one that starts with the help header, or nothing. -/
def skipToHeader : List Str → List Str
  | [] => []
  | l :: rest => if hasPrefix l helpHeader = true then l :: rest else skipToHeader rest

/-- The second loop of `handleVerboseContent`, on `lines[i:]` in the same
way: the lines from the first one equal to `#`, or nothing. -/
def skipToSeparator : List Str → List Str
  | [] => []
  | l :: rest => if l = ascii "#" then l :: rest else skipToSeparator rest

/-- The third loop of `handleVerboseContent`, on `lines[i:]` and the
content of the builder `verboseContent`.  On the scissors line `i += 2` and
then the `i++` of the `for` statement are executed, so that the loop goes on
at `lines[i+3:]`. -/
def copyLoop : List Str → Str → Str
  | [], verboseContent => verboseContent
  | l :: rest, verboseContent =>
    if l = scissors then
      match rest with
      | _ :: _ :: rest2 => copyLoop rest2 verboseContent
      | _ => verboseContent
    else copyLoop rest (verboseContent ++ l ++ [NL])

/-- The function `handleVerboseContent`.  Each `i = i + 1` that starts a
loop is a `drop 1`. -/
def handleVerboseContent (content : Str) : Str :=
  let lines := splitLines content
  let afterHeader := (skipToHeader lines).drop 1
  let afterSeparator := (skipToSeparator afterHeader).drop 1
  trimSuffixNL (copyLoop afterSeparator [])

/-! ## Reference functions used in the statements -/

/-- The normalisation of the bytes that follow two bytes `p0`, `p1`: a newline
is put before each bullet byte whose two preceding bytes are a colon and a
newline. -/
def normFrom (p0 p1 : Byte) : Str → Str
  | [] => []
  | b :: rest =>
    if (p0, p1) = (COLON, NL) ∧ isBullet b = true then NL :: b :: normFrom p1 b rest
    else b :: normFrom p1 b rest

/-- The value of `lookback` after the bytes `bs` went through it. -/
def lookbackAfter (lookback : Byte × Byte) (bs : Str) : Byte × Byte :=
  bs.foldl (fun lb b => (lb.2, b)) lookback

/-- The input with one newline byte put immediately before every byte of
`*`, `+`, `-` whose two preceding input bytes are `:` and a newline; every
other byte is kept, in order. -/
def withBlankLines (xs : Str) : Str :=
  xs.enum.flatMap fun ib =>
    if 2 ≤ ib.1 ∧ xs[ib.1 - 2]? = some COLON ∧ xs[ib.1 - 1]? = some NL ∧ isBullet ib.2 = true
    then [NL, ib.2] else [ib.2]

/-- Whether the input holds somewhere a colon, a newline and a bullet byte
in a row. -/
def hasColonNewlineBullet : Str → Bool
  | a :: b :: c :: rest =>
    (a == COLON && b == NL && isBullet c) || hasColonNewlineBullet (b :: c :: rest)
  | _ => false

/-- The eight tag lines. -/
def tagLines : List Str :=
  [openTag .sensitiveInfoWarning, closeTag .sensitiveInfoWarning,
   openTag .largeFilesWarning, closeTag .largeFilesWarning,
   openTag .thought, closeTag .thought,
   openTag .commitMessage, closeTag .commitMessage]

/-- Whether a line equals one of the eight tag lines. -/
def isTagLine (l : Str) : Bool := decide (l ∈ tagLines)

/-- The slot of a key in the result of `extractMessages`. -/
def Messages.get (m : Messages) : Key → Str
  | .sensitiveInfoWarning => m.sensitiveWarn
  | .largeFilesWarning => m.largeFilesWarn
  | .thought => m.thought
  | .commitMessage => m.commitMessage

/-- The result with `x` in the slot of `k` and the empty string in the three
other slots. -/
def Messages.only (k : Key) (x : Str) : Messages :=
  { sensitiveWarn := if k = .sensitiveInfoWarning then x else []
    largeFilesWarn := if k = .largeFilesWarning then x else []
    thought := if k = .thought then x else []
    commitMessage := if k = .commitMessage then x else [] }

/-- The lines of a well-formed tagged block: the opening tag line, the
content lines, the matching closing tag line. -/
def blockLines (b : Key × List Str) : List Str :=
  [openTag b.1] ++ b.2 ++ [closeTag b.1]

/-- The text made of a sequence of tagged blocks, one line after the
other. -/
def blocksText (blocks : List (Key × List Str)) : Str :=
  joinLines (blocks.flatMap blockLines)

/-- What the builder holds after the lines were written to it, each followed
by a newline. -/
def writeLines (lines : List Str) : Str := lines.flatMap fun l => l ++ [NL]

/-- The map `parts` after a sequence of blocks was committed, in order. -/
def commitBlocks (parts : Key → Str) (blocks : List (Key × List Str)) : Key → Str :=
  blocks.foldl (fun p b => Function.update p b.1 (writeLines b.2)) parts

/-- An environment for the examples: a wrapper that returns its input
unchanged and a cost rendered as `0.0000`. -/
def exampleEnv : Env :=
  { pandoc := fun _ stdin => some stdin
    sprintfCost := fun _ _ => ascii "0.0000" }

/-- A response for the examples: the thought comes before the commit message
in the completion text. -/
def exampleResponse : ApiResponse :=
  { Id := ascii "12345"
    Content := [ascii "<thinkthrough>\nwhy\n</thinkthrough>\n<commit-message>\nfeat: add X\n</commit-message>"]
    StopReason := ascii "end_turn"
    InputTokens := 10
    OutputTokens := 5 }

/-- An environment whose wrapper ends its output with a newline, as `pandoc`
does: it returns its input followed by a newline. -/
def newlineEnv : Env :=
  { pandoc := fun _ stdin => some (stdin ++ [NL])
    sprintfCost := fun _ _ => ascii "0.0000" }

/-- An environment whose wrapper fails on every block. -/
def failingEnv : Env :=
  { pandoc := fun _ _ => none
    sprintfCost := fun _ _ => ascii "0.0000" }

/-- A response whose text is a closing tag line alone. -/
def unopenedResponse : ApiResponse :=
  { Id := ascii "12345"
    Content := [ascii "</commit-message>"]
    StopReason := ascii "end_turn"
    InputTokens := 10
    OutputTokens := 5 }


/-- The eight lines of the separator block. -/
def separatorLines (env : Env) (resp : ApiResponse) : List Str :=
  [scissors,
   ascii "# Do not modify or remove the line above.",
   ascii "# Everything below it will be ignored.",
   ascii "#",
   ascii "# API ID: " ++ resp.Id,
   ascii "# Input tokens: " ++ sprintfInt resp.InputTokens ++ ascii " ($"
     ++ env.sprintfCost resp.InputTokens MillionInputTokensUnitPrice ++ ascii ")",
   ascii "# Output tokens: " ++ sprintfInt resp.OutputTokens ++ ascii " ($"
     ++ env.sprintfCost resp.OutputTokens MillionOutputTokensUnitPrice ++ ascii ")",
   ascii "#"]

/-- The lines of the document returned by `makeAPICall`; no line when no
document is returned. -/
def documentLines : CallResult → List Str
  | .document doc => splitLines doc
  | _ => []

/-- A response whose only section is the commit message `message`. -/
def messageResponse (message : Str) : ApiResponse :=
  { Id := ascii "12345"
    Content := [joinLines [openTag .commitMessage, message, closeTag .commitMessage]]
    StopReason := ascii "end_turn"
    InputTokens := 10
    OutputTokens := 5 }


/-- A response whose only section is the commit message `feat: add X`, with
the API id `id`. -/
def responseWithId (id : Str) : ApiResponse :=
  { Id := id
    Content := [ascii "<commit-message>\nfeat: add X\n</commit-message>"]
    StopReason := ascii "end_turn"
    InputTokens := 10
    OutputTokens := 5 }


/-! ## Theorems: `TransformText` -/

theorem lookbackAfter_append (lb : Byte × Byte) (a b : Str) :
    lookbackAfter lb (a ++ b) = lookbackAfter (lookbackAfter lb a) b := by
  simp [lookbackAfter, List.foldl_append]

theorem normFrom_append (a b : Str) : ∀ (p0 p1 : Byte),
    normFrom p0 p1 (a ++ b)
      = normFrom p0 p1 a ++ normFrom (lookbackAfter (p0, p1) a).1 (lookbackAfter (p0, p1) a).2 b := by
  induction a with
  | nil => intro p0 p1; simp [normFrom, lookbackAfter]
  | cons x a ih =>
    intro p0 p1
    have h := ih p1 x
    simp only [List.cons_append, normFrom, lookbackAfter, List.foldl_cons] at h ⊢
    split <;> simp [h]

theorem scanBuf_eq (buf : Str) : ∀ (lb : Byte × Byte) (pending written : Str),
    scanBuf buf lb pending written
      = (written ++ pending ++ normFrom lb.1 lb.2 buf, lookbackAfter lb buf) := by
  induction buf with
  | nil => intro lb pending written; simp [scanBuf, normFrom, lookbackAfter]
  | cons b rest ih =>
    intro lb pending written
    obtain ⟨p0, p1⟩ := lb
    simp only [scanBuf, normFrom, lookbackAfter, List.foldl_cons]
    split
    · rw [ih]; simp [lookbackAfter]
    · rw [ih]; simp [lookbackAfter]

/-- The three outcomes of a `Read`: the end with `io.EOF`, the end with
another error, or bytes with a nil error and a smaller reader that ends in
the same way. -/
theorem Read_cases (r : Reader) (k : Nat) :
    (∃ bs, r.Read k = .eof bs ∧ r.final = none)
      ∨ (∃ bs e, r.Read k = .error bs e ∧ r.final = some e)
      ∨ (∃ bs r1, r.Read k = .data bs r1 ∧ r1.final = r.final
          ∧ (0 < k → r1.size < r.size)) := by
  obtain ⟨chunks, final, last⟩ := r
  cases chunks with
  | nil =>
    by_cases hl : last.length ≤ k
    · cases final with
      | none => left; exact ⟨last, by simp [Reader.Read, hl], rfl⟩
      | some e => right; left; exact ⟨last, e, by simp [Reader.Read, hl], rfl⟩
    · right; right
      refine ⟨last.take k, ⟨[], final, last.drop k⟩, by simp [Reader.Read, hl], rfl, ?_⟩
      intro hk
      simp only [Reader.size, List.map_nil, List.sum_nil, List.length_drop]
      omega
  | cons c cs =>
    right; right
    by_cases hc : c.length ≤ k
    · refine ⟨c, ⟨cs, final, last⟩, by simp [Reader.Read, hc], rfl, ?_⟩
      intro _
      simp only [Reader.size, List.map_cons, List.sum_cons]
      omega
    · refine ⟨c.take k, ⟨c.drop k :: cs, final, last⟩, by simp [Reader.Read, hc], rfl, ?_⟩
      intro hk
      simp only [Reader.size, List.map_cons, List.sum_cons, List.length_drop]
      omega

/-- For every reader, the loop of `TransformText` ends before its bound on
the number of reads; what it has written is followed by the normalisation of
the bytes it scanned, and the stream ends as the reader does. -/
theorem transformLoop_shape : ∀ (fuel : Nat) (r : Reader) (lb : Byte × Byte) (written : Str),
    r.size < fuel →
    ∃ X : Str, transformLoop fuel r lb written
      = ⟨written ++ normFrom lb.1 lb.2 X, r.final⟩ := by
  intro fuel
  induction fuel with
  | zero => intro r lb written h; omega
  | succ fuel ih =>
    intro r lb written h
    rcases Read_cases r bufSize with ⟨bs, hr, hf⟩ | ⟨bs, e, hr, hf⟩ | ⟨bs, r1, hr, hf, hsize⟩
    · exact ⟨[], by simp [transformLoop, hr, hf, normFrom]⟩
    · exact ⟨[], by simp [transformLoop, hr, hf, normFrom]⟩
    · have hlt : r1.size < fuel := by
        have := hsize (by decide)
        omega
      simp only [transformLoop, hr]
      rw [scanBuf_eq]
      obtain ⟨X, hX⟩ := ih r1 (lookbackAfter lb bs) (written ++ [] ++ normFrom lb.1 lb.2 bs) hlt
      refine ⟨bs ++ X, ?_⟩
      rw [hX, hf, normFrom_append]
      simp

/-- For a reader that reports its end in a read of its own, the loop of
`TransformText` scans all the bytes of the chunks. -/
theorem transformLoop_eq : ∀ (fuel : Nat) (chunks : List Str) (final : Option IOError)
    (lb : Byte × Byte) (written : Str),
    Reader.size ⟨chunks, final, []⟩ < fuel →
    transformLoop fuel ⟨chunks, final, []⟩ lb written
      = ⟨written ++ normFrom lb.1 lb.2 chunks.flatten, final⟩ := by
  intro fuel
  induction fuel with
  | zero => intro chunks final lb written h; omega
  | succ fuel ih =>
    intro chunks final lb written h
    cases chunks with
    | nil =>
      cases final <;> simp [transformLoop, Reader.Read, normFrom]
    | cons c cs =>
      simp only [Reader.size, List.map_cons, List.sum_cons, List.length_nil] at h
      by_cases hc : c.length ≤ bufSize
      · simp only [transformLoop, Reader.Read, hc, if_true]
        rw [scanBuf_eq, ih]
        · simp [normFrom_append]
        · simp only [Reader.size, List.length_nil]; omega
      · simp only [transformLoop, Reader.Read, hc, if_false]
        rw [scanBuf_eq, ih]
        · simp only [List.flatten_cons, List.append_nil]
          rw [List.append_assoc, ← normFrom_append, ← List.append_assoc, List.take_append_drop]
        · simp only [Reader.size, List.map_cons, List.sum_cons, List.length_drop,
            List.length_nil]
          have : 0 < bufSize := by decide
          omega

theorem flatMap_enumFrom_eq_normFrom (xs : Str) : ∀ (rest pre : Str) (p0 p1 : Byte),
    xs = pre ++ p0 :: p1 :: rest →
    (rest.enumFrom (pre.length + 2)).flatMap (fun ib =>
        if 2 ≤ ib.1 ∧ xs[ib.1 - 2]? = some COLON ∧ xs[ib.1 - 1]? = some NL ∧ isBullet ib.2 = true
        then [NL, ib.2] else [ib.2])
      = normFrom p0 p1 rest := by
  intro rest
  induction rest with
  | nil => intro pre p0 p1 _; simp [normFrom]
  | cons b rest ih =>
    intro pre p0 p1 hxs
    have h0 : xs[pre.length]? = some p0 := by
      rw [hxs, List.getElem?_append_right (Nat.le_refl _)]; simp
    have h1 : xs[pre.length + 1]? = some p1 := by
      rw [hxs, List.getElem?_append_right (by omega)]; simp
    have ih2 := ih (pre ++ [p0]) p1 b (by rw [hxs]; simp)
    simp only [List.length_append, List.length_singleton] at ih2
    simp only [List.enumFrom_cons, List.flatMap_cons, normFrom]
    rw [ih2]
    simp only [Nat.add_sub_cancel, h0, show pre.length + 2 - 1 = pre.length + 1 from rfl, h1,
      Nat.le_add_left, true_and, Option.some.injEq, Prod.mk.injEq]
    by_cases hc : p0 = COLON ∧ p1 = NL ∧ isBullet b = true
    · have hc2 : (p0 = COLON ∧ p1 = NL) ∧ isBullet b = true := ⟨⟨hc.1, hc.2.1⟩, hc.2.2⟩
      rw [if_pos hc, if_pos hc2]; rfl
    · have hc2 : ¬ ((p0 = COLON ∧ p1 = NL) ∧ isBullet b = true) :=
        fun h => hc ⟨h.1.1, h.1.2, h.2⟩
      rw [if_neg hc, if_neg hc2]; rfl

theorem withBlankLines_cons_cons (a b : Byte) (rest : Str) :
    withBlankLines (a :: b :: rest) = a :: b :: normFrom a b rest := by
  have h := flatMap_enumFrom_eq_normFrom (a :: b :: rest) rest [] a b rfl
  simp only [List.length_nil, Nat.zero_add] at h
  simp only [withBlankLines, List.enum, List.enumFrom_cons, List.flatMap_cons]
  rw [h]
  simp

theorem Read_cons_of_le (c : Str) (cs : List Str) (final : Option IOError) (last : Str)
    (k : Nat) (h : c.length ≤ k) :
    Reader.Read ⟨c :: cs, final, last⟩ k = .data c ⟨cs, final, last⟩ := by
  simp [Reader.Read, h]

theorem Read_cons_of_lt (c : Str) (cs : List Str) (final : Option IOError) (last : Str)
    (k : Nat) (h : k < c.length) :
    Reader.Read ⟨c :: cs, final, last⟩ k
      = .data (c.take k) ⟨c.drop k :: cs, final, last⟩ := by
  simp [Reader.Read, Nat.not_le.mpr h]

theorem TransformText_cons_cons (a b : Byte) (c : Str) (cs : List Str) (final : Option IOError) :
    TransformText ⟨(a :: b :: c) :: cs, final, []⟩
      = ⟨a :: b :: normFrom a b (c ++ cs.flatten), final⟩ := by
  cases c with
  | nil =>
    unfold TransformText
    rw [Read_cons_of_le _ _ _ _ _ (by simp)]
    simp only [List.length_cons, List.length_nil, List.getD_cons_zero, List.getD_cons_succ]
    rw [if_neg (by omega), transformLoop_eq _ _ _ _ _ (Nat.lt_succ_self _)]
    simp
  | cons x c =>
    unfold TransformText
    rw [Read_cons_of_lt _ _ _ _ _ (by simp)]
    simp only [List.take_succ_cons, List.take_zero, List.drop_succ_cons, List.drop_zero,
      List.length_cons, List.length_nil, List.getD_cons_zero, List.getD_cons_succ]
    rw [if_neg (by omega), transformLoop_eq _ _ _ _ _ (Nat.lt_succ_self _)]
    simp

theorem TransformText_singleton_cons (a b : Byte) (c : Str) (cs : List Str)
    (final : Option IOError) :
    TransformText ⟨[a] :: (b :: c) :: cs, final, []⟩
      = ⟨a :: b :: normFrom a b (c ++ cs.flatten), final⟩ := by
  cases c with
  | nil =>
    unfold TransformText
    rw [Read_cons_of_le _ _ _ _ _ (by simp)]
    simp only [List.length_cons, List.length_nil, List.getD_cons_zero, if_true]
    rw [Read_cons_of_le _ _ _ _ _ (by simp)]
    simp only [List.getD_cons_zero]
    rw [transformLoop_eq _ _ _ _ _ (Nat.lt_succ_self _)]
    simp
  | cons x c =>
    unfold TransformText
    rw [Read_cons_of_le _ _ _ _ _ (by simp)]
    simp only [List.length_cons, List.length_nil, List.getD_cons_zero, if_true]
    rw [Read_cons_of_lt _ _ _ _ _ (by simp)]
    simp only [List.take_succ_cons, List.take_zero, List.drop_succ_cons, List.drop_zero,
      List.getD_cons_zero]
    rw [transformLoop_eq _ _ _ _ _ (Nat.lt_succ_self _)]
    simp

/-- With at least two bytes to come in non-empty chunks from a reader that
reports its end, whatever it is, in a read of its own, the stream holds the
normalised bytes and ends as the reader does. -/
theorem TransformText_of_two_le (chunks : List Str) (final : Option IOError)
    (hlen : 2 ≤ chunks.flatten.length) (hne : ∀ c ∈ chunks, c ≠ []) :
    TransformText ⟨chunks, final, []⟩ = ⟨withBlankLines chunks.flatten, final⟩ := by
  match chunks, hlen, hne with
  | [], hlen, _ => simp at hlen
  | [] :: _, _, hne => exact absurd rfl (hne [] (by simp))
  | [a] :: [], hlen, _ => simp at hlen
  | [a] :: [] :: _, _, hne => exact absurd rfl (hne [] (by simp))
  | [a] :: (b :: c) :: cs, _, _ =>
    rw [TransformText_singleton_cons]
    simp [withBlankLines_cons_cons]
  | (a :: b :: c) :: cs, _, _ =>
    rw [TransformText_cons_cons]
    simp [withBlankLines_cons_cons]

/-- For every input of at least two bytes, delivered in any split into
non-empty chunks by a reader that reports the end of the stream in a read of
its own (as `strings.Reader` does), the bytes read from the returned stream
are the input with one newline inserted immediately before every byte of
`*`, `+`, `-` whose two preceding input bytes are `:` and a newline, every
other byte unchanged and in order, and the stream ends cleanly. -/
theorem TransformText_inserts_blank_lines (input : Str) (chunks : List Str)
    (hlen : 2 ≤ input.length) (hne : ∀ c ∈ chunks, c ≠ [])
    (hsplit : chunks.flatten = input) :
    TransformText ⟨chunks, none, []⟩ = ⟨withBlankLines input, none⟩ := by
  subst hsplit
  exact TransformText_of_two_le chunks none hlen hne

/-- The input of the test, in one chunk and in many small chunks, with the
end of the stream in a read of its own, gets one blank line before
`- Line 5`. -/
theorem TransformText_inserts_blank_lines_witness :
    TransformText ⟨[ascii "Warning: ...:\n- Line 5"], none, []⟩
        = ⟨withBlankLines (ascii "Warning: ...:\n- Line 5"), none⟩
      ∧ TransformText ⟨[ascii "Warning: ...", ascii ":", ascii "\n", ascii "-", ascii " Line 5"],
          none, []⟩ = ⟨withBlankLines (ascii "Warning: ...:\n- Line 5"), none⟩
      ∧ withBlankLines (ascii "Warning: ...:\n- Line 5") = ascii "Warning: ...:\n\n- Line 5" :=
  ⟨TransformText_inserts_blank_lines (ascii "Warning: ...:\n- Line 5")
      [ascii "Warning: ...:\n- Line 5"] (by decide) (by decide) (by decide),
   TransformText_inserts_blank_lines (ascii "Warning: ...:\n- Line 5")
      [ascii "Warning: ...", ascii ":", ascii "\n", ascii "-", ascii " Line 5"]
      (by decide) (by decide) (by decide),
   by decide⟩

/-- C1: on the input `ab:\n-cd`, of seven bytes, split into the non-empty
chunks `ab` and `:\n-cd`, the second one returned by the reader together with
`io.EOF`, the stream of `TransformText` holds `ab` only, and not the input
with a newline inserted before `-`: the loop is left on the error of the
`Read` before the bytes that came with it are scanned and written.  The
same holds for any two first bytes and any bytes, up to the size of the
buffer, returned together with the end of the stream. -/
theorem TransformText_drops_bytes_read_with_end :
    TransformText ⟨[ascii "ab"], none, ascii ":\n-cd"⟩ = ⟨ascii "ab", none⟩
      ∧ withBlankLines (ascii "ab" ++ ascii ":\n-cd") = ascii "ab:\n\n-cd"
      ∧ (∀ (a b : Byte) (last : Str) (final : Option IOError), last.length ≤ bufSize
          → TransformText ⟨[[a, b]], final, last⟩ = ⟨[a, b], final⟩) := by
  refine ⟨by decide, by decide, ?_⟩
  intro a b last final hlast
  unfold TransformText
  rw [Read_cons_of_le _ _ _ _ _ (by simp)]
  cases final <;> simp [transformLoop, Reader.Read, hlast]

/-! ## Theorems: lines -/

theorem splitLines_ne_nil (s : Str) : splitLines s ≠ [] := by
  cases s with
  | nil => simp [splitLines]
  | cons c cs =>
    simp only [splitLines]
    split
    · simp
    · split <;> simp

theorem splitLines_append_NL (a b : Str) :
    splitLines (a ++ NL :: b) = splitLines a ++ splitLines b := by
  induction a with
  | nil => simp [splitLines]
  | cons c a ih =>
    simp only [List.cons_append, splitLines]
    by_cases hc : c = NL
    · simp [hc, ih]
    · simp only [hc, if_false, List.append_eq]
      rw [ih]
      cases h : splitLines a with
      | nil => exact absurd h (splitLines_ne_nil a)
      | cons l ls => simp

theorem splitLines_of_not_mem (l : Str) (h : NL ∉ l) : splitLines l = [l] := by
  induction l with
  | nil => rfl
  | cons c l ih =>
    have hc : c ≠ NL := fun e => h (by simp [e])
    have hl : NL ∉ l := fun e => h (List.mem_cons_of_mem _ e)
    simp [splitLines, hc, ih hl]

theorem joinLines_cons_cons (l l2 : Str) (ls : List Str) :
    joinLines (l :: l2 :: ls) = l ++ NL :: joinLines (l2 :: ls) := rfl

theorem splitLines_joinLines (ts : List Str) (h : ts ≠ []) :
    splitLines (joinLines ts) = ts.flatMap splitLines := by
  induction ts with
  | nil => exact absurd rfl h
  | cons t ts ih =>
    cases ts with
    | nil => simp [joinLines]
    | cons t2 ts =>
      rw [joinLines_cons_cons, splitLines_append_NL, ih (by simp)]
      simp

theorem flatMap_splitLines_of_not_mem (ls : List Str) (h : ∀ l ∈ ls, NL ∉ l) :
    ls.flatMap splitLines = ls := by
  induction ls with
  | nil => rfl
  | cons l ls ih =>
    simp only [List.flatMap_cons]
    rw [splitLines_of_not_mem l (h l (by simp)), ih (fun x hx => h x (List.mem_cons_of_mem _ hx))]
    rfl

theorem joinLines_splitLines (s : Str) : joinLines (splitLines s) = s := by
  induction s with
  | nil => rfl
  | cons c s ih =>
    simp only [splitLines]
    by_cases hc : c = NL
    · simp only [hc, if_true]
      cases h : splitLines s with
      | nil => exact absurd h (splitLines_ne_nil s)
      | cons l ls => rw [joinLines_cons_cons, ← h, ih]; rfl
    · simp only [hc, if_false]
      cases h : splitLines s with
      | nil => exact absurd h (splitLines_ne_nil s)
      | cons l ls =>
        rw [h] at ih
        cases ls with
        | nil => simp only [joinLines] at ih ⊢; rw [ih]
        | cons l2 ls =>
          rw [joinLines_cons_cons] at ih ⊢
          rw [← ih]; rfl

theorem trimSuffixNL_append_NL (s : Str) : trimSuffixNL (s ++ [NL]) = s := by
  simp [trimSuffixNL]

theorem trimSuffixNL_nil : trimSuffixNL [] = [] := rfl

theorem writeLines_eq_joinLines (ls : List Str) (h : ls ≠ []) :
    writeLines ls = joinLines ls ++ [NL] := by
  induction ls with
  | nil => exact absurd rfl h
  | cons l ls ih =>
    cases ls with
    | nil => simp [writeLines, joinLines]
    | cons l2 ls =>
      have := ih (by simp)
      simp only [writeLines, List.flatMap_cons] at this ⊢
      rw [joinLines_cons_cons, this]
      simp

theorem trimSuffixNL_writeLines (ls : List Str) : trimSuffixNL (writeLines ls) = joinLines ls := by
  cases ls with
  | nil => rfl
  | cons l ls => rw [writeLines_eq_joinLines _ (by simp), trimSuffixNL_append_NL]

/-! ## Theorems: `extractMessages` -/

theorem extractStep_openTag (st : ExtractState) (k : Key) :
    extractStep st (openTag k) = some ⟨st.parts, some []⟩ := by
  cases k <;> rfl

theorem extractStep_closeTag (st : ExtractState) (k : Key) :
    extractStep st (closeTag k) = commitPart st k := by
  cases k <;> rfl

theorem extractStep_plain (st : ExtractState) (l : Str) (h : isTagLine l = false) :
    extractStep st l
      = some (match st.builder with
          | some b => ⟨st.parts, some (b ++ l ++ [NL])⟩
          | none => st) := by
  simp only [isTagLine, decide_eq_false_iff_not, tagLines, openTag, closeTag, List.mem_cons,
    List.mem_singleton, List.not_mem_nil, or_false, not_or] at h
  obtain ⟨h1, h2, h3, h4, h5, h6, h7, h8⟩ := h
  simp only [extractStep, if_neg h1, if_neg h2, if_neg h3, if_neg h4, if_neg h5, if_neg h6,
    if_neg h7, if_neg h8]
  cases st.builder <;> rfl

theorem extractLoop_append (a b : List Str) : ∀ st : ExtractState,
    extractLoop (a ++ b) st = (extractLoop a st).bind (extractLoop b) := by
  induction a with
  | nil => intro st; rfl
  | cons l a ih =>
    intro st
    simp only [List.cons_append, extractLoop]
    cases extractStep st l with
    | none => rfl
    | some st1 => exact ih st1

theorem extractLoop_plain_none (lines : List Str) (h : ∀ l ∈ lines, isTagLine l = false)
    (parts : Key → Str) :
    extractLoop lines ⟨parts, none⟩ = some ⟨parts, none⟩ := by
  induction lines with
  | nil => rfl
  | cons l lines ih =>
    simp only [extractLoop, extractStep_plain _ l (h l (by simp))]
    exact ih (fun x hx => h x (List.mem_cons_of_mem _ hx))

theorem extractLoop_plain_some (lines : List Str) (h : ∀ l ∈ lines, isTagLine l = false)
    (parts : Key → Str) : ∀ b : Str,
    extractLoop lines ⟨parts, some b⟩ = some ⟨parts, some (b ++ writeLines lines)⟩ := by
  induction lines with
  | nil => intro b; simp [extractLoop, writeLines]
  | cons l lines ih =>
    intro b
    simp only [extractLoop, extractStep_plain _ l (h l (by simp))]
    rw [ih (fun x hx => h x (List.mem_cons_of_mem _ hx))]
    simp [writeLines]

/-- A well-formed block commits its content to the slot of its tag, whatever
the state before it, and leaves no builder active. -/
theorem extractLoop_block (k : Key) (content : List Str)
    (h : ∀ l ∈ content, isTagLine l = false) (st : ExtractState) :
    extractLoop ([openTag k] ++ content ++ [closeTag k]) st
      = some ⟨Function.update st.parts k (writeLines content), none⟩ := by
  rw [extractLoop_append, extractLoop_append]
  simp only [extractLoop, extractStep_openTag, Option.bind_eq_bind, Option.some_bind]
  rw [extractLoop_plain_some content h]
  simp [extractLoop, extractStep_closeTag, commitPart]

theorem trimSuffixNL_update (parts : Key → Str) (k k2 : Key) (ls : List Str) :
    trimSuffixNL (Function.update parts k (writeLines ls) k2)
      = if k2 = k then joinLines ls else trimSuffixNL (parts k2) := by
  by_cases h : k2 = k
  · subst h; simp [trimSuffixNL_writeLines]
  · simp [h]

/-- C2: for each of the four tag names and every text `X` none of whose lines
is one of the eight tag lines, `extractMessages` applied to the opening tag
line, `X` and the matching closing tag line, optionally preceded and followed
by texts without a tag line, returns `X` in the slot of the tag and the empty
string in the three other slots. -/
theorem extractMessages_single_block (k : Key) (X : Str) (pre post : Option Str)
    (hX : ∀ l ∈ splitLines X, isTagLine l = false)
    (hpre : ∀ p ∈ pre, ∀ l ∈ splitLines p, isTagLine l = false)
    (hpost : ∀ q ∈ post, ∀ l ∈ splitLines q, isTagLine l = false) :
    extractMessages (joinLines (pre.toList ++ [openTag k, X, closeTag k] ++ post.toList))
      = some (Messages.only k X) := by
  have hopen : splitLines (openTag k) = [openTag k] := by cases k <;> decide
  have hclose : splitLines (closeTag k) = [closeTag k] := by cases k <;> decide
  have hpre2 : ∀ l ∈ pre.toList.flatMap splitLines, isTagLine l = false := by
    intro l hl
    cases pre with
    | none => simp at hl
    | some p => exact hpre p rfl l (by simpa using hl)
  have hpost2 : ∀ l ∈ post.toList.flatMap splitLines, isTagLine l = false := by
    intro l hl
    cases post with
    | none => simp at hl
    | some q => exact hpost q rfl l (by simpa using hl)
  unfold extractMessages
  rw [splitLines_joinLines _ (by simp)]
  simp only [List.flatMap_append, List.flatMap_cons, List.flatMap_nil, List.append_nil, hopen,
    hclose]
  rw [show pre.toList.flatMap splitLines ++ ([openTag k] ++ (splitLines X ++ [closeTag k]))
        ++ post.toList.flatMap splitLines
      = pre.toList.flatMap splitLines ++ (([openTag k] ++ splitLines X ++ [closeTag k])
        ++ post.toList.flatMap splitLines) from by simp]
  rw [extractLoop_append, extractLoop_plain_none _ hpre2, Option.some_bind,
    extractLoop_append, extractLoop_block k _ hX, Option.some_bind,
    extractLoop_plain_none _ hpost2]
  simp only [trimSuffixNL_update, trimSuffixNL_nil, joinLines_splitLines, Messages.only]
  cases k <;> simp

/-- Witness of C2: the commit message block alone, and a block between
untagged lines. -/
theorem extractMessages_single_block_witness :
    extractMessages (ascii "<commit-message>\nX\n</commit-message>")
        = some ⟨[], [], [], ascii "X"⟩
      ∧ extractMessages (ascii "\n<thinkthrough>\nline 1\n\nline 3\n</thinkthrough>\n\t")
        = some ⟨[], [], ascii "line 1\n\nline 3", []⟩ :=
  ⟨extractMessages_single_block .commitMessage (ascii "X") none none
      (by decide) (by simp) (by simp),
   extractMessages_single_block .thought (ascii "line 1\n\nline 3") (some []) (some (ascii "\t"))
      (by decide) (by decide) (by decide)⟩

/-- C5: at a closing tag line met while no builder is active, the
dereference `*builder` panics, so `extractMessages` returns nothing: for a
closing tag line alone (each of the four), and for a closing tag that follows
an already closed inner block. -/
theorem extractMessages_panics_without_open_tag :
    (∀ k : Key, extractMessages (closeTag k) = none)
      ∧ extractMessages
          (ascii "<thinkthrough>\n<commit-message>\nm\n</commit-message>\n</thinkthrough>")
        = none := by
  refine ⟨fun k => ?_, by decide⟩
  cases k <;> decide

theorem extractLoop_blocks (blocks : List (Key × List Str))
    (h : ∀ b ∈ blocks, ∀ l ∈ b.2, isTagLine l = false) : ∀ parts : Key → Str,
    extractLoop (blocks.flatMap blockLines) ⟨parts, none⟩
      = some ⟨commitBlocks parts blocks, none⟩ := by
  induction blocks with
  | nil => intro parts; rfl
  | cons b blocks ih =>
    intro parts
    simp only [List.flatMap_cons, blockLines]
    rw [extractLoop_append, extractLoop_block b.1 b.2 (h b (by simp)), Option.some_bind]
    exact ih (fun x hx => h x (List.mem_cons_of_mem _ hx)) _

theorem commitBlocks_of_not_mem (blocks : List (Key × List Str)) (k : Key)
    (hk : k ∉ blocks.map Prod.fst) : ∀ parts : Key → Str,
    commitBlocks parts blocks k = parts k := by
  induction blocks with
  | nil => intro parts; rfl
  | cons b blocks ih =>
    intro parts
    simp only [List.map_cons, List.mem_cons, not_or] at hk
    simp only [commitBlocks, List.foldl_cons]
    have := ih hk.2 (Function.update parts b.1 (writeLines b.2))
    simp only [commitBlocks] at this
    rw [this, Function.update_noteq hk.1]

theorem commitBlocks_of_mem (blocks : List (Key × List Str))
    (hnodup : (blocks.map Prod.fst).Nodup) : ∀ (parts : Key → Str),
    ∀ b ∈ blocks, commitBlocks parts blocks b.1 = writeLines b.2 := by
  induction blocks with
  | nil => intro parts b hb; simp at hb
  | cons b0 blocks ih =>
    intro parts b hb
    simp only [List.map_cons, List.nodup_cons] at hnodup
    have hstep : commitBlocks parts (b0 :: blocks)
        = commitBlocks (Function.update parts b0.1 (writeLines b0.2)) blocks := rfl
    rw [hstep]
    rcases List.mem_cons.mp hb with rfl | hb
    · rw [commitBlocks_of_not_mem _ _ hnodup.1]; simp
    · exact ih hnodup.2 _ b hb

theorem commitBlocks_perm (blocks blocks2 : List (Key × List Str))
    (hnodup : (blocks.map Prod.fst).Nodup) (hperm : blocks2.Perm blocks) (parts : Key → Str) :
    commitBlocks parts blocks2 = commitBlocks parts blocks := by
  have hnodup2 : (blocks2.map Prod.fst).Nodup := (hperm.map Prod.fst).nodup_iff.mpr hnodup
  funext k
  by_cases hk : k ∈ blocks.map Prod.fst
  · obtain ⟨b, hb, rfl⟩ := List.mem_map.mp hk
    rw [commitBlocks_of_mem blocks hnodup parts b hb,
      commitBlocks_of_mem blocks2 hnodup2 parts b (hperm.mem_iff.mpr hb)]
  · have hk2 : k ∉ blocks2.map Prod.fst := fun h => hk ((hperm.map Prod.fst).mem_iff.mp h)
    rw [commitBlocks_of_not_mem _ _ hk, commitBlocks_of_not_mem _ _ hk2]

theorem extractMessages_blocksText (blocks : List (Key × List Str))
    (hwf : ∀ b ∈ blocks, ∀ l ∈ b.2, NL ∉ l ∧ isTagLine l = false) :
    extractMessages (blocksText blocks)
      = some {
          sensitiveWarn := trimSuffixNL (commitBlocks (fun _ => []) blocks .sensitiveInfoWarning)
          largeFilesWarn := trimSuffixNL (commitBlocks (fun _ => []) blocks .largeFilesWarning)
          thought := trimSuffixNL (commitBlocks (fun _ => []) blocks .thought)
          commitMessage := trimSuffixNL (commitBlocks (fun _ => []) blocks .commitMessage) } := by
  cases blocks with
  | nil => rfl
  | cons b blocks =>
    have hne : (b :: blocks).flatMap blockLines ≠ [] := by simp [blockLines]
    have hnl : ∀ l ∈ (b :: blocks).flatMap blockLines, NL ∉ l := by
      intro l hl
      obtain ⟨b2, hb2, hl2⟩ := List.mem_flatMap.mp hl
      simp only [blockLines, List.mem_append, List.mem_singleton] at hl2
      rcases hl2 with (rfl | hl2) | rfl
      · cases b2.1 <;> decide
      · exact (hwf b2 hb2 l hl2).1
      · cases b2.1 <;> decide
    unfold extractMessages blocksText
    rw [splitLines_joinLines _ hne, flatMap_splitLines_of_not_mem _ hnl,
      extractLoop_blocks _ (fun b2 hb2 l hl => (hwf b2 hb2 l hl).2)]

/-- C10: for every sequence of well-formed tagged blocks with pairwise
distinct tag names (an opening tag line, content lines none of which is a tag
line, the matching closing tag line), `extractMessages` returns the same four
strings for every permutation of the blocks, the content of each block being
in the slot named by its tag and the slot of a tag without a block being
empty. -/
theorem extractMessages_blocks_perm (blocks blocks2 : List (Key × List Str))
    (hwf : ∀ b ∈ blocks, ∀ l ∈ b.2, NL ∉ l ∧ isTagLine l = false)
    (hnodup : (blocks.map Prod.fst).Nodup) (hperm : blocks2.Perm blocks) :
    ∃ m : Messages,
      extractMessages (blocksText blocks) = some m
        ∧ extractMessages (blocksText blocks2) = some m
        ∧ (∀ b ∈ blocks, m.get b.1 = joinLines b.2)
        ∧ (∀ k, k ∉ blocks.map Prod.fst → m.get k = []) := by
  have hwf2 : ∀ b ∈ blocks2, ∀ l ∈ b.2, NL ∉ l ∧ isTagLine l = false :=
    fun b hb => hwf b (hperm.mem_iff.mp hb)
  refine ⟨_, extractMessages_blocksText blocks hwf, ?_, ?_, ?_⟩
  · rw [extractMessages_blocksText blocks2 hwf2, commitBlocks_perm blocks blocks2 hnodup hperm]
  · intro b hb
    have h := commitBlocks_of_mem blocks hnodup (fun _ => []) b hb
    cases hk : b.1 <;> rw [hk] at h <;> simp [Messages.get, h, trimSuffixNL_writeLines]
  · intro k hk
    have h := commitBlocks_of_not_mem blocks k hk (fun _ => [])
    cases k <;> simp [Messages.get, h, trimSuffixNL_nil]

/-- Witness of C10: the two blocks of test 5 in both orders. -/
theorem extractMessages_blocks_perm_witness :
    ∃ m : Messages,
      extractMessages (blocksText
          [(.largeFilesWarning, [ascii "Warning:", ascii "- data (120MB)"]),
           (.commitMessage, [ascii "feat: x", [], ascii "body"])]) = some m
        ∧ extractMessages (blocksText
          [(.commitMessage, [ascii "feat: x", [], ascii "body"]),
           (.largeFilesWarning, [ascii "Warning:", ascii "- data (120MB)"])]) = some m
        ∧ (∀ b ∈ [((.largeFilesWarning : Key), [ascii "Warning:", ascii "- data (120MB)"]),
                  (.commitMessage, [ascii "feat: x", [], ascii "body"])],
            m.get b.1 = joinLines b.2)
        ∧ (∀ k, k ∉ [((.largeFilesWarning : Key), [ascii "Warning:", ascii "- data (120MB)"]),
                  (.commitMessage, [ascii "feat: x", [], ascii "body"])].map Prod.fst
            → m.get k = []) :=
  extractMessages_blocks_perm
    [(.largeFilesWarning, [ascii "Warning:", ascii "- data (120MB)"]),
     (.commitMessage, [ascii "feat: x", [], ascii "body"])]
    [(.commitMessage, [ascii "feat: x", [], ascii "body"]),
     (.largeFilesWarning, [ascii "Warning:", ascii "- data (120MB)"])]
    (by decide) (by decide) (List.Perm.swap _ _ _)

/-! ## Theorems: `handleVerboseContent` -/

theorem skipToHeader_append (P : List Str) (h : Str) (rest : List Str)
    (hP : ∀ l ∈ P, hasPrefix l helpHeader = false) (hh : hasPrefix h helpHeader = true) :
    skipToHeader (P ++ h :: rest) = h :: rest := by
  induction P with
  | nil => simp [skipToHeader, hh]
  | cons l P ih =>
    simp only [List.cons_append, skipToHeader, hP l (by simp)]
    exact ih (fun x hx => hP x (List.mem_cons_of_mem _ hx))

theorem skipToSeparator_append (M rest : List Str) (hM : ∀ l ∈ M, l ≠ ascii "#") :
    skipToSeparator (M ++ ascii "#" :: rest) = ascii "#" :: rest := by
  induction M with
  | nil => simp [skipToSeparator]
  | cons l M ih =>
    simp only [List.cons_append, skipToSeparator, if_neg (hM l (by simp))]
    exact ih (fun x hx => hM x (List.mem_cons_of_mem _ hx))

theorem copyLoop_cons_of_ne (l : Str) (rest : List Str) (acc : Str) (h : l ≠ scissors) :
    copyLoop (l :: rest) acc = copyLoop rest (acc ++ l ++ [NL]) := by
  rcases rest with _ | ⟨a, _ | ⟨b, r⟩⟩ <;> simp [copyLoop, h]

theorem copyLoop_append (B rest : List Str) (hB : ∀ l ∈ B, l ≠ scissors) : ∀ acc : Str,
    copyLoop (B ++ rest) acc = copyLoop rest (acc ++ writeLines B) := by
  induction B with
  | nil => intro acc; simp [writeLines]
  | cons l B ih =>
    intro acc
    rw [List.cons_append, copyLoop_cons_of_ne _ _ _ (hB l (by simp)),
      ih (fun x hx => hB x (List.mem_cons_of_mem _ hx))]
    simp [writeLines]

theorem copyLoop_of_no_scissors (B : List Str) (hB : ∀ l ∈ B, l ≠ scissors) (acc : Str) :
    copyLoop B acc = acc ++ writeLines B := by
  have h := copyLoop_append B [] hB acc
  simpa [copyLoop] using h

theorem copyLoop_scissors (x y : Str) (rest : List Str) (acc : Str) :
    copyLoop (scissors :: x :: y :: rest) acc = copyLoop rest acc := by
  simp [copyLoop]

theorem writeLines_append (a b : List Str) : writeLines (a ++ b) = writeLines a ++ writeLines b := by
  simp [writeLines]

/-- The lines handed to the third loop of `handleVerboseContent` when the
template has lines before the header, the header, lines without a `#` line,
and the `#` line. -/
theorem handleVerboseContent_of_lines (content : Str) (P M rest : List Str) (h : Str)
    (hlines : splitLines content = P ++ [h] ++ M ++ [ascii "#"] ++ rest)
    (hP : ∀ l ∈ P, hasPrefix l helpHeader = false) (hh : hasPrefix h helpHeader = true)
    (hM : ∀ l ∈ M, l ≠ ascii "#") :
    handleVerboseContent content = trimSuffixNL (copyLoop rest []) := by
  have e : P ++ [h] ++ M ++ [ascii "#"] ++ rest = P ++ h :: (M ++ ascii "#" :: rest) := by simp
  unfold handleVerboseContent
  rw [hlines, e]
  show trimSuffixNL (copyLoop
    ((skipToSeparator ((skipToHeader (P ++ h :: (M ++ ascii "#" :: rest))).drop 1)).drop 1) []) = _
  rw [skipToHeader_append P h _ hP hh]
  show trimSuffixNL (copyLoop ((skipToSeparator (M ++ ascii "#" :: rest)).drop 1) []) = _
  rw [skipToSeparator_append M rest hM]
  rfl

/-- C3: for every template whose lines have the shape
`P ++ [h] ++ M ++ ["#"] ++ B ++ [S, x, y] ++ R`, no line of `P` starting
with the help header, `h` starting with it, no line of `M` equal to `#`, `S`
the scissors line and no line of `B` or `R` equal to it,
`handleVerboseContent` returns the lines of `B` followed by the lines of `R`
joined by newlines. -/
theorem handleVerboseContent_template (content : Str) (P M B R : List Str) (h x y : Str)
    (hlines : splitLines content
      = P ++ [h] ++ M ++ [ascii "#"] ++ B ++ [scissors, x, y] ++ R)
    (hP : ∀ l ∈ P, hasPrefix l helpHeader = false) (hh : hasPrefix h helpHeader = true)
    (hM : ∀ l ∈ M, l ≠ ascii "#")
    (hB : ∀ l ∈ B, l ≠ scissors) (hR : ∀ l ∈ R, l ≠ scissors) :
    handleVerboseContent content = joinLines (B ++ R) := by
  rw [handleVerboseContent_of_lines content P M (B ++ [scissors, x, y] ++ R) h
    (by rw [hlines]; simp) hP hh hM]
  rw [List.append_assoc, copyLoop_append B _ hB]
  simp only [List.cons_append, List.nil_append]
  rw [copyLoop_scissors, copyLoop_of_no_scissors R hR, ← writeLines_append,
    trimSuffixNL_writeLines]

/-- Witness of C3: a template of the shape of the test. -/
theorem handleVerboseContent_template_witness :
    handleVerboseContent (ascii "# Why?\n\n# Please enter the commit message for your changes. Lines starting\n# with # will be ignored.\n#\n# On branch main\n#\n# Changes to be committed:\n# ------------------------ >8 ------------------------\n# Do not modify or remove the line above.\n# Everything below it will be ignored.\ndiff --git a/f b/f\nindex 4f6b7e7..b1b3b3e 100644\n")
      = joinLines ([ascii "# On branch main", ascii "#", ascii "# Changes to be committed:"]
          ++ [ascii "diff --git a/f b/f", ascii "index 4f6b7e7..b1b3b3e 100644", []]) :=
  handleVerboseContent_template _
    [ascii "# Why?", []]
    [ascii "# with # will be ignored."]
    [ascii "# On branch main", ascii "#", ascii "# Changes to be committed:"]
    [ascii "diff --git a/f b/f", ascii "index 4f6b7e7..b1b3b3e 100644", []]
    (ascii "# Please enter the commit message for your changes. Lines starting")
    (ascii "# Do not modify or remove the line above.")
    (ascii "# Everything below it will be ignored.")
    (by decide) (by decide) (by decide) (by decide) (by decide) (by decide)

/-- C9, as stated, fails: on a template made of the help header, the `#`
separator, a file-status block, the scissors line with its two instruction
lines and a diff, the result holds the diff lines after the file-status
block. -/
theorem handleVerboseContent_keeps_diff_lines :
    handleVerboseContent (ascii "# Please enter the commit message for your changes. Lines starting\n# with # will be ignored, and an empty message aborts the commit.\n#\n# On branch main\n#\n# Changes to be committed:\n#\tmodified:   f\n#\n# ------------------------ >8 ------------------------\n# Do not modify or remove the line above.\n# Everything below it will be ignored.\ndiff --git a/f b/f\nindex 4f6b7e7..b1b3b3e 100644\n")
        = ascii "# On branch main\n#\n# Changes to be committed:\n#\tmodified:   f\n#\ndiff --git a/f b/f\nindex 4f6b7e7..b1b3b3e 100644\n"
      ∧ ascii "diff --git a/f b/f" ∈ splitLines (handleVerboseContent (ascii "# Please enter the commit message for your changes. Lines starting\n# with # will be ignored, and an empty message aborts the commit.\n#\n# On branch main\n#\n# Changes to be committed:\n#\tmodified:   f\n#\n# ------------------------ >8 ------------------------\n# Do not modify or remove the line above.\n# Everything below it will be ignored.\ndiff --git a/f b/f\nindex 4f6b7e7..b1b3b3e 100644\n")) := by
  decide

/-- C9, amended: for every template made of the help header (a line starting
with it and further lines none of which is `#`), the `#` separator line, a
file-status block `B`, the scissors line and the lines `D` after it (none of
`B` and `D` being the scissors line), `handleVerboseContent` returns the lines
of the file-status block followed by the lines of `D` from the third on: the
header, the separator, the scissors line and the two lines after it are
absent, the later lines of the diff are kept. -/
theorem handleVerboseContent_status_block_and_diff (content : Str) (M B D : List Str) (h : Str)
    (hlines : splitLines content = [h] ++ M ++ [ascii "#"] ++ B ++ [scissors] ++ D)
    (hh : hasPrefix h helpHeader = true) (hM : ∀ l ∈ M, l ≠ ascii "#")
    (hB : ∀ l ∈ B, l ≠ scissors) (hD : ∀ l ∈ D, l ≠ scissors) :
    handleVerboseContent content = joinLines (B ++ D.drop 2) := by
  rw [handleVerboseContent_of_lines content [] M (B ++ [scissors] ++ D) h
    (by rw [hlines]; simp) (by simp) hh hM]
  rw [List.append_assoc, copyLoop_append B _ hB, List.nil_append]
  rcases D with _ | ⟨x, _ | ⟨y, R⟩⟩
  · simp [copyLoop, trimSuffixNL_writeLines]
  · simp [copyLoop, trimSuffixNL_writeLines]
  · have hR : ∀ l ∈ R, l ≠ scissors :=
      fun l hl => hD l (List.mem_cons_of_mem _ (List.mem_cons_of_mem _ hl))
    simp only [List.singleton_append, List.drop_succ_cons, List.drop_zero]
    rw [copyLoop_scissors, copyLoop_of_no_scissors R hR, ← writeLines_append,
      trimSuffixNL_writeLines]

/-- Witness of the amended C9. -/
theorem handleVerboseContent_status_block_and_diff_witness :
    handleVerboseContent (ascii "# Please enter the commit message for your changes. Lines starting\n# with # will be ignored.\n#\n# On branch main\n#\n# ------------------------ >8 ------------------------\n# Do not modify or remove the line above.\n# Everything below it will be ignored.\ndiff --git a/f b/f\n")
      = joinLines ([ascii "# On branch main", ascii "#"]
          ++ [ascii "# Do not modify or remove the line above.",
              ascii "# Everything below it will be ignored.",
              ascii "diff --git a/f b/f", []].drop 2) :=
  handleVerboseContent_status_block_and_diff _
    [ascii "# with # will be ignored."]
    [ascii "# On branch main", ascii "#"]
    [ascii "# Do not modify or remove the line above.",
     ascii "# Everything below it will be ignored.",
     ascii "diff --git a/f b/f", []]
    (ascii "# Please enter the commit message for your changes. Lines starting")
    (by decide) (by decide) (by decide) (by decide) (by decide)

/-! ## Theorems: `makeAPICall` -/

theorem separatorBlock_eq_writeLines (env : Env) (resp : ApiResponse) :
    separatorBlock env resp
      = writeLines
          [scissors,
           ascii "# Do not modify or remove the line above.",
           ascii "# Everything below it will be ignored.",
           ascii "#",
           ascii "# API ID: " ++ resp.Id,
           ascii "# Input tokens: " ++ sprintfInt resp.InputTokens ++ ascii " ($"
             ++ env.sprintfCost resp.InputTokens MillionInputTokensUnitPrice ++ ascii ")",
           ascii "# Output tokens: " ++ sprintfInt resp.OutputTokens ++ ascii " ($"
             ++ env.sprintfCost resp.OutputTokens MillionOutputTokensUnitPrice ++ ascii ")",
           ascii "#"] := by
  have e1 : ascii "# ------------------------ >8 ------------------------\n"
      = scissors ++ [NL] := by decide
  have e2 : ascii "# Do not modify or remove the line above.\n"
      = ascii "# Do not modify or remove the line above." ++ [NL] := by decide
  have e3 : ascii "# Everything below it will be ignored.\n"
      = ascii "# Everything below it will be ignored." ++ [NL] := by decide
  have e4 : ascii "#\n" = ascii "#" ++ [NL] := by decide
  have e5 : ascii "\n" = [NL] := by decide
  have e6 : ascii ")\n" = ascii ")" ++ [NL] := by decide
  simp only [separatorBlock, writeLines, e1, e2, e3, e4, e5, e6, List.flatMap_cons,
    List.flatMap_nil, List.append_assoc, List.append_nil]

/-- C4: for every successful completion, the document returned by
`makeAPICall` is, with one trailing newline removed, the concatenation in
this order of: the sensitive information warning rendered by `formatWarning`
if it is not empty; the large files warning rendered by `formatWarning` if it
is not empty; the commit message rendered by `formatPlain` if it is not
empty; the separator block (scissors line, two instruction lines, `#`, the
API id line, the two token lines, `#`), present in every case; and, if the
thought is not empty, the intro comment line, the thought rendered by
`formatPlain` and a blank line.  The document depends on the completion text
through the four extracted sections only, so the order of the sections in the
text has no effect on it. -/
theorem makeAPICall_document_order (env : Env) (resp : ApiResponse) (text : Str)
    (others : List Str) (m : Messages)
    (hstop : resp.StopReason = ascii "end_turn")
    (hcontent : resp.Content = text :: others) (htext : text ≠ [])
    (hm : extractMessages text = some m) :
    makeAPICall env resp
      = .document (trimSuffixNL (
          (if m.sensitiveWarn ≠ [] then
              formatWarning env (ascii "Sensitive Information Warning") m.sensitiveWarn
            else [])
          ++ (if m.largeFilesWarn ≠ [] then
              formatWarning env (ascii "Large Files Warning") m.largeFilesWarn
            else [])
          ++ (if m.commitMessage ≠ [] then formatPlain env m.commitMessage else [])
          ++ writeLines
              [scissors,
               ascii "# Do not modify or remove the line above.",
               ascii "# Everything below it will be ignored.",
               ascii "#",
               ascii "# API ID: " ++ resp.Id,
               ascii "# Input tokens: " ++ sprintfInt resp.InputTokens ++ ascii " ($"
                 ++ env.sprintfCost resp.InputTokens MillionInputTokensUnitPrice ++ ascii ")",
               ascii "# Output tokens: " ++ sprintfInt resp.OutputTokens ++ ascii " ($"
                 ++ env.sprintfCost resp.OutputTokens MillionOutputTokensUnitPrice ++ ascii ")",
               ascii "#"]
          ++ (if m.thought ≠ [] then
              ascii "# Below is the thought process that created the above message."
                ++ [NL] ++ formatPlain env m.thought ++ [NL]
            else []))) := by
  have e1 : ascii "# Below is the thought process that created the above message.\n"
      = ascii "# Below is the thought process that created the above message." ++ [NL] := by
    decide
  have e2 : ascii "\n" = [NL] := by decide
  rw [← separatorBlock_eq_writeLines]
  unfold makeAPICall
  rw [if_neg (not_not.mpr hstop), hcontent]
  simp only [if_neg htext, hm, e1, e2]
  congr 2
  by_cases h1 : m.sensitiveWarn = [] <;> by_cases h2 : m.largeFilesWarn = []
    <;> by_cases h3 : m.commitMessage = [] <;> by_cases h4 : m.thought = []
    <;> simp [h1, h2, h3, h4]

/-- Witness of C4: a completion whose thought comes before its commit
message gives the commit message, the separator block and then the thought. -/
theorem makeAPICall_document_order_witness :
    makeAPICall exampleEnv exampleResponse
      = .document (ascii "feat: add X\n# ------------------------ >8 ------------------------\n# Do not modify or remove the line above.\n# Everything below it will be ignored.\n#\n# API ID: 12345\n# Input tokens: 10 ($0.0000)\n# Output tokens: 5 ($0.0000)\n#\n# Below is the thought process that created the above message.\nwhy\n") :=
  (makeAPICall_document_order exampleEnv exampleResponse
    (ascii "<thinkthrough>\nwhy\n</thinkthrough>\n<commit-message>\nfeat: add X\n</commit-message>")
    [] ⟨[], [], ascii "why", ascii "feat: add X"⟩
    (by decide) (by decide) (by decide) (by decide)).trans (by decide)

/-! ## Theorems: short inputs of `TransformText` -/

theorem normFrom_of_no_pattern (rest : Str) : ∀ (p0 p1 : Byte),
    hasColonNewlineBullet (p0 :: p1 :: rest) = false → normFrom p0 p1 rest = rest := by
  induction rest with
  | nil => intro p0 p1 _; rfl
  | cons b rest ih =>
    intro p0 p1 h
    simp only [hasColonNewlineBullet, Bool.or_eq_false_iff, Bool.and_eq_false_imp,
      Bool.and_eq_true, beq_iff_eq, and_imp] at h
    have hno : ¬ ((p0, p1) = (COLON, NL) ∧ isBullet b = true) := by
      rintro ⟨hp, hb⟩
      simp only [Prod.mk.injEq] at hp
      have := h.1 hp.1 hp.2
      rw [hb] at this
      exact Bool.noConfusion this
    rw [normFrom, if_neg hno, ih p1 b h.2]

/-- With at least two bytes that hold no colon, newline, bullet in a row, in
any split into non-empty chunks, from a reader that reports its end in a read
of its own, the output of `TransformText` is the input. -/
theorem TransformText_unchanged_of_two_le (chunks : List Str) (final : Option IOError)
    (hlen : 2 ≤ chunks.flatten.length) (hne : ∀ c ∈ chunks, c ≠ [])
    (hno : hasColonNewlineBullet chunks.flatten = false) :
    TransformText ⟨chunks, final, []⟩ = ⟨chunks.flatten, final⟩ := by
  rw [TransformText_of_two_le chunks final hlen hne]
  match hxs : chunks.flatten, hlen, hno with
  | a :: b :: rest, _, hno =>
    rw [withBlankLines_cons_cons, normFrom_of_no_pattern rest a b hno]

/-- C6: on an input of one byte, which holds no colon, newline, bullet in a
row, the output of `TransformText` is empty and so differs from the input:
when the second read into `lookback` meets the end of the stream, the
function returns before the byte read first is written. -/
theorem TransformText_not_identity_on_one_byte :
    hasColonNewlineBullet (ascii "a") = false
      ∧ (TransformText (stringsNewReader (ascii "a"))).bytes = []
      ∧ (TransformText (stringsNewReader (ascii "a"))).bytes ≠ ascii "a" := by
  decide

/-- C7: an empty input gives an empty output, but an input of one byte gives
an empty output too, whatever the byte: the byte read is not emitted. -/
theorem TransformText_drops_single_byte (a : Byte) :
    TransformText ⟨[], none, []⟩ = ⟨[], none⟩
      ∧ TransformText ⟨[[a]], none, []⟩ = ⟨[], none⟩
      ∧ (TransformText ⟨[[a]], none, []⟩).bytes ≠ [a] := by
  refine ⟨rfl, ?_, ?_⟩ <;> simp [TransformText, Reader.Read]

/-! ## Theorems: absent sections of `extractMessages` -/

theorem closeTag_injective (k k2 : Key) (h : closeTag k = closeTag k2) : k = k2 := by
  cases k <;> cases k2 <;> first | rfl | exact absurd h (by decide)

theorem extractStep_parts_of_ne_closeTag (st st1 : ExtractState) (l : Str) (k : Key)
    (hl : l ≠ closeTag k) (h : extractStep st l = some st1) : st1.parts k = st.parts k := by
  by_cases ht : isTagLine l = false
  · rw [extractStep_plain st l ht] at h
    cases hb : st.builder with
    | none => simp only [hb, Option.some.injEq] at h; rw [← h]
    | some b => simp only [hb, Option.some.injEq] at h; rw [← h]
  · simp only [isTagLine, decide_eq_false_iff_not, not_not, tagLines, List.mem_cons,
      List.mem_singleton, List.not_mem_nil, or_false] at ht
    have hopen : ∀ k2, l = openTag k2 → st1.parts k = st.parts k := by
      intro k2 e
      rw [e, extractStep_openTag] at h
      simp only [Option.some.injEq] at h
      rw [← h]
    have hclose : ∀ k2, l = closeTag k2 → st1.parts k = st.parts k := by
      intro k2 e
      have hk : k ≠ k2 := fun e2 => hl (by rw [e, e2])
      rw [e, extractStep_closeTag] at h
      cases hb : st.builder with
      | none => simp [commitPart, hb] at h
      | some b =>
        simp only [commitPart, hb, Option.some.injEq] at h
        rw [← h]
        exact Function.update_noteq hk _ _
    rcases ht with e | e | e | e | e | e | e | e
    · exact hopen _ e
    · exact hclose _ e
    · exact hopen _ e
    · exact hclose _ e
    · exact hopen _ e
    · exact hclose _ e
    · exact hopen _ e
    · exact hclose _ e

theorem extractLoop_parts_of_no_closeTag (lines : List Str) (k : Key)
    (hl : ∀ l ∈ lines, l ≠ closeTag k) : ∀ st st1 : ExtractState,
    extractLoop lines st = some st1 → st1.parts k = st.parts k := by
  induction lines with
  | nil => intro st st1 h; simp only [extractLoop, Option.some.injEq] at h; rw [h]
  | cons l lines ih =>
    intro st st1 h
    simp only [extractLoop] at h
    cases hs : extractStep st l with
    | none => simp [hs] at h
    | some st2 =>
      simp only [hs] at h
      rw [ih (fun x hx => hl x (List.mem_cons_of_mem _ hx)) st2 st1 h]
      exact extractStep_parts_of_ne_closeTag st st2 l k (hl l (by simp)) hs

/-- C11: for every text in which no line is one of the eight tag lines,
`extractMessages` returns four empty strings; and in every result of
`extractMessages`, the slot of a key whose opening and closing tag lines do
not occur in the text is the empty string. -/
theorem extractMessages_absent_sections_empty (text : Str) :
    ((∀ l ∈ splitLines text, isTagLine l = false)
        → extractMessages text = some ⟨[], [], [], []⟩)
      ∧ (∀ (k : Key) (m : Messages),
          (∀ l ∈ splitLines text, l ≠ openTag k ∧ l ≠ closeTag k)
          → extractMessages text = some m → m.get k = []) := by
  constructor
  · intro h
    unfold extractMessages
    rw [extractLoop_plain_none _ h]
    rfl
  · intro k m hk hm
    unfold extractMessages at hm
    cases hloop : extractLoop (splitLines text) ⟨fun _ => [], none⟩ with
    | none => simp [hloop] at hm
    | some st =>
      have hparts := extractLoop_parts_of_no_closeTag (splitLines text) k
        (fun l hl => (hk l hl).2) _ st hloop
      simp only [hloop, Option.some.injEq] at hm
      rw [← hm]
      cases k <;> simp [Messages.get, hparts, trimSuffixNL_nil]

/-- Witness of C11: a text without a tag line, and a text with a commit
message block only, whose thought slot is empty. -/
theorem extractMessages_absent_sections_empty_witness :
    extractMessages (ascii "no tags here\n<b>bold</b>\n") = some ⟨[], [], [], []⟩
      ∧ (⟨[], [], [], ascii "X"⟩ : Messages).get .thought = [] :=
  ⟨(extractMessages_absent_sections_empty (ascii "no tags here\n<b>bold</b>\n")).1 (by decide),
   (extractMessages_absent_sections_empty (ascii "<commit-message>\nX\n</commit-message>")).2
      .thought ⟨[], [], [], ascii "X"⟩ (by decide) (by decide)⟩


/-! ## Theorems: overlapping and mismatched tags of `extractMessages` -/

/-- An opening tag line of `A`, tag-free lines and a closing tag line of `B`
commit the lines to the slot of `B`, whatever the state before, and leave no
builder active. -/
theorem extractLoop_open_close (A B : Key) (content : List Str)
    (h : ∀ l ∈ content, isTagLine l = false) (st : ExtractState) :
    extractLoop ([openTag A] ++ content ++ [closeTag B]) st
      = some ⟨Function.update st.parts B (writeLines content), none⟩ := by
  rw [extractLoop_append, extractLoop_append]
  simp only [extractLoop, extractStep_openTag, Option.bind_eq_bind, Option.some_bind]
  rw [extractLoop_plain_some content h]
  simp [extractLoop, extractStep_closeTag, commitPart]

/-- An opening tag line followed by tag-free lines leaves a builder that
holds these lines, whatever the state before: what an earlier builder held is
lost. -/
theorem extractLoop_open (A : Key) (content : List Str)
    (h : ∀ l ∈ content, isTagLine l = false) (st : ExtractState) :
    extractLoop ([openTag A] ++ content) st = some ⟨st.parts, some (writeLines content)⟩ := by
  rw [extractLoop_append]
  simp only [extractLoop, extractStep_openTag, Option.bind_eq_bind, Option.some_bind]
  rw [extractLoop_plain_some content h]
  simp

theorem splitLines_openTag (k : Key) : splitLines (openTag k) = [openTag k] := by
  cases k <;> decide

theorem splitLines_closeTag (k : Key) : splitLines (closeTag k) = [closeTag k] := by
  cases k <;> decide

theorem messages_of_update (k : Key) (X : Str) :
    (⟨trimSuffixNL (Function.update (fun _ => []) k (writeLines (splitLines X))
          .sensitiveInfoWarning),
      trimSuffixNL (Function.update (fun _ => []) k (writeLines (splitLines X))
          .largeFilesWarning),
      trimSuffixNL (Function.update (fun _ => []) k (writeLines (splitLines X)) .thought),
      trimSuffixNL (Function.update (fun _ => []) k (writeLines (splitLines X))
          .commitMessage)⟩ : Messages)
      = Messages.only k X := by
  simp only [trimSuffixNL_update, trimSuffixNL_nil, joinLines_splitLines, Messages.only]
  cases k <;> simp

theorem flatMap_splitLines_toList (post : Option Str)
    (hpost : ∀ q ∈ post, ∀ l ∈ splitLines q, isTagLine l = false) :
    ∀ l ∈ post.toList.flatMap splitLines, isTagLine l = false := by
  intro l hl
  cases post with
  | none => simp at hl
  | some q => exact hpost q rfl l (by simpa using hl)

/-- C18: an opening tag line met while another tag is still open discards
the text captured so far: for tags `A` and `B` and tag-free texts `X`, `Y`,
the text made of the opening tag line of `A`, `X`, the opening tag line of
`B`, `Y` and the closing tag line of `B`, optionally followed by a tag-free
text, yields `Y` in the slot of `B` and the empty string in the other slots,
the one of `A` included when `A` differs from `B`. -/
theorem extractMessages_open_discards_previous (A B : Key) (X Y : Str) (post : Option Str)
    (hAB : A ≠ B)
    (hX : ∀ l ∈ splitLines X, isTagLine l = false)
    (hY : ∀ l ∈ splitLines Y, isTagLine l = false)
    (hpost : ∀ q ∈ post, ∀ l ∈ splitLines q, isTagLine l = false) :
    extractMessages (joinLines ([openTag A, X, openTag B, Y, closeTag B] ++ post.toList))
        = some (Messages.only B Y)
      ∧ (Messages.only B Y).get B = Y ∧ (Messages.only B Y).get A = [] := by
  refine ⟨?_, by cases B <;> rfl, by cases A <;> cases B <;> first | rfl | exact absurd rfl hAB⟩
  unfold extractMessages
  rw [splitLines_joinLines _ (by simp)]
  simp only [List.flatMap_append, List.flatMap_cons, List.flatMap_nil, List.append_nil,
    splitLines_openTag, splitLines_closeTag]
  rw [show [openTag A] ++ (splitLines X ++ ([openTag B] ++ (splitLines Y ++ [closeTag B])))
        ++ post.toList.flatMap splitLines
      = ([openTag A] ++ splitLines X) ++ (([openTag B] ++ splitLines Y ++ [closeTag B])
        ++ post.toList.flatMap splitLines) from by simp]
  rw [extractLoop_append, extractLoop_open A _ hX, Option.some_bind, extractLoop_append,
    extractLoop_open_close B B _ hY, Option.some_bind,
    extractLoop_plain_none _ (flatMap_splitLines_toList post hpost)]
  exact congrArg some (messages_of_update B Y)

/-- Witness of C18: a commit message opened inside an unclosed thought. -/
theorem extractMessages_open_discards_previous_witness :
    extractMessages (ascii "<thinkthrough>\nlost\n<commit-message>\nkept\n</commit-message>")
        = some ⟨[], [], [], ascii "kept"⟩
      ∧ (Messages.only .commitMessage (ascii "kept")).get .commitMessage = ascii "kept"
      ∧ (Messages.only .commitMessage (ascii "kept")).get .thought = [] :=
  extractMessages_open_discards_previous .thought .commitMessage (ascii "lost") (ascii "kept")
    none (by decide) (by decide) (by decide) (by simp)

/-- C19: the closing tag alone decides the slot that receives the captured
text: for every pair of tags `A`, `B` and tag-free text `X`, the text made of
the opening tag line of `A`, `X` and the closing tag line of `B`, optionally
followed by a tag-free text, yields `X` in the slot of `B` and the empty
string in the other slots (the one of `A` when `A` differs from `B`); the
lines after the closing tag are ignored. -/
theorem extractMessages_close_decides_slot (A B : Key) (X : Str) (post : Option Str)
    (hX : ∀ l ∈ splitLines X, isTagLine l = false)
    (hpost : ∀ q ∈ post, ∀ l ∈ splitLines q, isTagLine l = false) :
    extractMessages (joinLines ([openTag A, X, closeTag B] ++ post.toList))
        = some (Messages.only B X)
      ∧ (Messages.only B X).get B = X ∧ (A ≠ B → (Messages.only B X).get A = []) := by
  refine ⟨?_, by cases B <;> rfl,
    fun hAB => by cases A <;> cases B <;> first | rfl | exact absurd rfl hAB⟩
  unfold extractMessages
  rw [splitLines_joinLines _ (by simp)]
  simp only [List.flatMap_append, List.flatMap_cons, List.flatMap_nil, List.append_nil,
    splitLines_openTag, splitLines_closeTag]
  rw [show [openTag A] ++ (splitLines X ++ [closeTag B]) ++ post.toList.flatMap splitLines
      = ([openTag A] ++ splitLines X ++ [closeTag B]) ++ post.toList.flatMap splitLines
      from by simp]
  rw [extractLoop_append, extractLoop_open_close A B _ hX, Option.some_bind,
    extractLoop_plain_none _ (flatMap_splitLines_toList post hpost)]
  exact congrArg some (messages_of_update B X)

/-- Witness of C19: a thought opened and closed as a commit message, with
lines after the closing tag. -/
theorem extractMessages_close_decides_slot_witness :
    extractMessages (ascii "<thinkthrough>\nX\n</commit-message>\nafter\nthe tag")
        = some ⟨[], [], [], ascii "X"⟩
      ∧ (Messages.only .commitMessage (ascii "X")).get .commitMessage = ascii "X"
      ∧ ((Key.thought ≠ Key.commitMessage)
          → (Messages.only .commitMessage (ascii "X")).get .thought = []) :=
  extractMessages_close_decides_slot .thought .commitMessage (ascii "X")
    (some (ascii "after\nthe tag")) (by decide) (by decide)


/-! ## Theorems: read errors of `TransformText` -/

theorem transformLoop_err (r : Reader) (lb : Byte × Byte) (written : Str) :
    (transformLoop (r.size + 1) r lb written).err = r.final := by
  obtain ⟨X, hX⟩ := transformLoop_shape _ r lb written (Nat.lt_succ_self _)
  rw [hX]

/-- The end of the stream of `TransformText` is the end of the reader, for
every reader. -/
theorem TransformText_err (r : Reader) : (TransformText r).err = r.final := by
  unfold TransformText
  rcases Read_cases r 2 with ⟨bs, hr, hf⟩ | ⟨bs, e, hr, hf⟩ | ⟨bs, r1, hr, hf, _⟩
  · simp [hr, hf]
  · simp [hr, hf]
  · rw [hr]
    simp only []
    split
    · rcases Read_cases r1 1 with ⟨bs2, hr2, hf2⟩ | ⟨bs2, e, hr2, hf2⟩ | ⟨bs2, r2, hr2, hf2, _⟩
      · simp [hr2, ← hf, hf2]
      · simp [hr2, ← hf, hf2]
      · rw [hr2]
        simp only []
        rw [transformLoop_err, hf2, hf]
    · rw [transformLoop_err, hf]

/-- C20: when the source reader ends with an error other than the end of the
stream, after any number of chunks of any sizes (so at the first read, at
the second read into `lookback` or at a later read into `buf`) and with or
without bytes returned together with the error, the stream of
`TransformText` ends with that same error. -/
theorem TransformText_propagates_read_error (chunks : List Str) (e : IOError) (last : Str) :
    (TransformText ⟨chunks, some e, last⟩).err = some e :=
  TransformText_err ⟨chunks, some e, last⟩

/-! ## Theorems: failures and the end of the document of `makeAPICall` -/

/-- The document of a successful completion, as the content of the builder
`response` with one trailing newline removed. -/
theorem makeAPICall_of_messages (env : Env) (resp : ApiResponse) (text : Str)
    (others : List Str) (m : Messages)
    (hstop : resp.StopReason = ascii "end_turn")
    (hcontent : resp.Content = text :: others) (htext : text ≠ [])
    (hm : extractMessages text = some m) :
    makeAPICall env resp
      = .document (trimSuffixNL (
          ((if m.sensitiveWarn ≠ [] then
              formatWarning env (ascii "Sensitive Information Warning") m.sensitiveWarn
            else [])
          ++ (if m.largeFilesWarn ≠ [] then
              formatWarning env (ascii "Large Files Warning") m.largeFilesWarn
            else [])
          ++ (if m.commitMessage ≠ [] then formatPlain env m.commitMessage else []))
          ++ separatorBlock env resp
          ++ (if m.thought ≠ [] then
              ascii "# Below is the thought process that created the above message.\n"
                ++ formatPlain env m.thought ++ [NL]
            else []))) := by
  have e2 : ascii "\n" = [NL] := by decide
  unfold makeAPICall
  rw [if_neg (not_not.mpr hstop), hcontent]
  simp only [if_neg htext, hm, e2]
  congr 2
  by_cases h1 : m.sensitiveWarn = [] <;> by_cases h2 : m.largeFilesWarn = []
    <;> by_cases h3 : m.commitMessage = [] <;> by_cases h4 : m.thought = []
    <;> simp [h1, h2, h3, h4]

theorem separatorBlock_eq_append (env : Env) (resp : ApiResponse) :
    ∃ pre : Str, separatorBlock env resp = pre ++ ascii "#" ++ [NL] := by
  refine ⟨writeLines [scissors,
           ascii "# Do not modify or remove the line above.",
           ascii "# Everything below it will be ignored.",
           ascii "#",
           ascii "# API ID: " ++ resp.Id,
           ascii "# Input tokens: " ++ sprintfInt resp.InputTokens ++ ascii " ($"
             ++ env.sprintfCost resp.InputTokens MillionInputTokensUnitPrice ++ ascii ")",
           ascii "# Output tokens: " ++ sprintfInt resp.OutputTokens ++ ascii " ($"
             ++ env.sprintfCost resp.OutputTokens MillionOutputTokensUnitPrice ++ ascii ")"],
    ?_⟩
  rw [separatorBlock_eq_writeLines]
  simp [writeLines]

/-- C12, as stated, fails: with a wrapper whose output ends with a newline,
the document of a completion with a thought ends with two newlines. -/
theorem makeAPICall_document_ends_with_two_newlines :
    makeAPICall newlineEnv exampleResponse
        = .document (ascii "feat: add X\n\n# ------------------------ >8 ------------------------\n# Do not modify or remove the line above.\n# Everything below it will be ignored.\n#\n# API ID: 12345\n# Input tokens: 10 ($0.0000)\n# Output tokens: 5 ($0.0000)\n#\n# Below is the thought process that created the above message.\nwhy\n\n")
      ∧ [NL, NL].isSuffixOf (ascii "feat: add X\n\n# ------------------------ >8 ------------------------\n# Do not modify or remove the line above.\n# Everything below it will be ignored.\n#\n# API ID: 12345\n# Input tokens: 10 ($0.0000)\n# Output tokens: 5 ($0.0000)\n#\n# Below is the thought process that created the above message.\nwhy\n\n") = true := by
  decide

/-- C12, amended: `makeAPICall` removes one trailing newline from the
assembled text.  When the thought is empty, the document ends with the last
line `#` of the separator block and with no newline.  When a thought is
present, the document ends with the intro comment line followed by the
thought as rendered by `formatPlain`: with the output of the wrapper and one
newline more when the wrapper succeeds, with the newline of the intro line
when it fails. -/
theorem makeAPICall_document_end (env : Env) (resp : ApiResponse) (text : Str)
    (others : List Str) (m : Messages)
    (hstop : resp.StopReason = ascii "end_turn")
    (hcontent : resp.Content = text :: others) (htext : text ≠ [])
    (hm : extractMessages text = some m) :
    (m.thought = [] → ∃ pre : Str, makeAPICall env resp = .document (pre ++ ascii "#"))
      ∧ (m.thought ≠ [] → ∃ pre : Str, makeAPICall env resp
          = .document (pre
              ++ ascii "# Below is the thought process that created the above message.\n"
              ++ formatPlain env m.thought)) := by
  obtain ⟨S, hS⟩ : ∃ S : Str, makeAPICall env resp
      = .document (trimSuffixNL (S ++ separatorBlock env resp
          ++ (if m.thought ≠ [] then
              ascii "# Below is the thought process that created the above message.\n"
                ++ formatPlain env m.thought ++ [NL]
            else []))) :=
    ⟨_, makeAPICall_of_messages env resp text others m hstop hcontent htext hm⟩
  rw [hS]
  constructor
  · intro ht
    obtain ⟨pre, hpre⟩ := separatorBlock_eq_append env resp
    refine ⟨S ++ pre, ?_⟩
    rw [if_neg (not_not.mpr ht), List.append_nil, hpre, ← List.append_assoc,
      ← List.append_assoc, trimSuffixNL_append_NL]
  · intro ht
    refine ⟨S ++ separatorBlock env resp, ?_⟩
    rw [if_pos ht, ← List.append_assoc, ← List.append_assoc, trimSuffixNL_append_NL]

/-- Witness of the amended C12, with a wrapper whose output ends with a
newline. -/
theorem makeAPICall_document_end_witness :
    ((⟨[], [], ascii "why", ascii "feat: add X"⟩ : Messages).thought = []
        → ∃ pre : Str, makeAPICall newlineEnv exampleResponse = .document (pre ++ ascii "#"))
      ∧ ((⟨[], [], ascii "why", ascii "feat: add X"⟩ : Messages).thought ≠ []
        → ∃ pre : Str, makeAPICall newlineEnv exampleResponse
          = .document (pre
              ++ ascii "# Below is the thought process that created the above message.\n"
              ++ formatPlain newlineEnv
                  (⟨[], [], ascii "why", ascii "feat: add X"⟩ : Messages).thought)) :=
  makeAPICall_document_end newlineEnv exampleResponse
    (ascii "<thinkthrough>\nwhy\n</thinkthrough>\n<commit-message>\nfeat: add X\n</commit-message>")
    [] ⟨[], [], ascii "why", ascii "feat: add X"⟩
    (by decide) (by decide) (by decide) (by decide)


theorem formatWarning_of_failure (env : Env) (title content : Str)
    (h : env.pandoc 70 (TransformText (stringsNewReader content)).bytes = none) :
    formatWarning env title content = [] := by
  simp [formatWarning, h]

theorem formatPlain_of_failure (env : Env) (content : Str)
    (h : env.pandoc 72 (TransformText (stringsNewReader content)).bytes = none) :
    formatPlain env content = [] := by
  simp [formatPlain, h]

/-- C13: when the wrapper fails on a block, `formatWarning` and `formatPlain`
return the empty string for it, and `makeAPICall` still returns a document
for a successful completion; when the wrapper fails on every block, the
document is made of the eight lines of the separator block, with the API id
and the two token lines, followed, when there is a thought, by the intro
comment line and an empty line: no rendered section is in it. -/
theorem makeAPICall_wrapper_failure (env : Env) (resp : ApiResponse) (text : Str)
    (others : List Str) (m : Messages)
    (hstop : resp.StopReason = ascii "end_turn")
    (hcontent : resp.Content = text :: others) (htext : text ≠ [])
    (hm : extractMessages text = some m) :
    (∀ title content : Str,
        env.pandoc 70 (TransformText (stringsNewReader content)).bytes = none
        → formatWarning env title content = [])
      ∧ (∀ content : Str,
        env.pandoc 72 (TransformText (stringsNewReader content)).bytes = none
        → formatPlain env content = [])
      ∧ (∃ doc : Str, makeAPICall env resp = .document doc)
      ∧ ((∀ (n : Nat) (stdin : Str), env.pandoc n stdin = none)
        → makeAPICall env resp
          = .document (joinLines (
              [scissors,
               ascii "# Do not modify or remove the line above.",
               ascii "# Everything below it will be ignored.",
               ascii "#",
               ascii "# API ID: " ++ resp.Id,
               ascii "# Input tokens: " ++ sprintfInt resp.InputTokens ++ ascii " ($"
                 ++ env.sprintfCost resp.InputTokens MillionInputTokensUnitPrice ++ ascii ")",
               ascii "# Output tokens: " ++ sprintfInt resp.OutputTokens ++ ascii " ($"
                 ++ env.sprintfCost resp.OutputTokens MillionOutputTokensUnitPrice ++ ascii ")",
               ascii "#"]
              ++ (if m.thought ≠ [] then
                  [ascii "# Below is the thought process that created the above message.", []]
                else [])))) := by
  refine ⟨fun title content h => formatWarning_of_failure env title content h,
    fun content h => formatPlain_of_failure env content h,
    ⟨_, makeAPICall_of_messages env resp text others m hstop hcontent htext hm⟩, ?_⟩
  intro hfail
  have e1 : ascii "# Below is the thought process that created the above message.\n"
      = ascii "# Below is the thought process that created the above message." ++ [NL] := by
    decide
  rw [makeAPICall_of_messages env resp text others m hstop hcontent htext hm,
    separatorBlock_eq_writeLines]
  simp only [formatWarning_of_failure env _ _ (hfail _ _),
    formatPlain_of_failure env _ (hfail _ _), ite_self, List.append_nil, List.nil_append, e1]
  congr 1
  by_cases ht : m.thought = []
  · rw [if_neg (not_not.mpr ht), if_neg (not_not.mpr ht), List.append_nil, List.append_nil,
      trimSuffixNL_writeLines]
  · rw [if_pos ht, if_pos ht, ← trimSuffixNL_writeLines, writeLines_append]
    simp [writeLines]

/-- Witness of C13: the wrapper fails on every block of a completion with a
commit message and a thought. -/
theorem makeAPICall_wrapper_failure_witness :
    makeAPICall failingEnv exampleResponse
      = .document (ascii "# ------------------------ >8 ------------------------\n# Do not modify or remove the line above.\n# Everything below it will be ignored.\n#\n# API ID: 12345\n# Input tokens: 10 ($0.0000)\n# Output tokens: 5 ($0.0000)\n#\n# Below is the thought process that created the above message.\n") :=
  ((makeAPICall_wrapper_failure failingEnv exampleResponse
    (ascii "<thinkthrough>\nwhy\n</thinkthrough>\n<commit-message>\nfeat: add X\n</commit-message>")
    [] ⟨[], [], ascii "why", ascii "feat: add X"⟩
    (by decide) (by decide) (by decide) (by decide)).2.2.2 (fun _ _ => rfl)).trans (by decide)

theorem trimSuffixNL_ne_nil (s : Str) (h : 2 ≤ s.length) : trimSuffixNL s ≠ [] := by
  unfold trimSuffixNL
  split
  · intro e
    have := congrArg List.length e
    simp only [List.length_dropLast, List.length_nil] at this
    omega
  · intro e
    rw [e] at h
    simp at h

/-- Apart from the texts on which `extractMessages` panics, `makeAPICall`
returns an error exactly when the stop reason is not `end_turn`, the content
list is empty or its first text is empty, and a non-empty document
otherwise. -/
theorem makeAPICall_failure_iff (env : Env) (resp : ApiResponse) :
    ((∃ msg, makeAPICall env resp = .failure msg)
        ↔ (resp.StopReason ≠ ascii "end_turn" ∨ resp.Content = []
            ∨ resp.Content.head? = some []))
      ∧ (∀ doc, makeAPICall env resp = .document doc → doc ≠ []) := by
  constructor
  · by_cases hstop : resp.StopReason = ascii "end_turn"
    · cases hcontent : resp.Content with
      | nil => simp [makeAPICall, hstop, hcontent]
      | cons text others =>
        by_cases htext : text = []
        · simp [makeAPICall, hstop, hcontent, htext]
        · cases hm : extractMessages text with
          | none => simp [makeAPICall, hstop, hcontent, htext, hm]
          | some m =>
            rw [makeAPICall_of_messages env resp text others m hstop hcontent htext hm]
            simp [hstop, htext]
    · simp [makeAPICall, hstop]
  · intro doc hdoc
    by_cases hstop : resp.StopReason = ascii "end_turn"
    · cases hcontent : resp.Content with
      | nil => simp [makeAPICall, hstop, hcontent] at hdoc
      | cons text others =>
        by_cases htext : text = []
        · simp [makeAPICall, hstop, hcontent, htext] at hdoc
        · cases hm : extractMessages text with
          | none => simp [makeAPICall, hstop, hcontent, htext, hm] at hdoc
          | some m =>
            rw [makeAPICall_of_messages env resp text others m hstop hcontent htext hm] at hdoc
            simp only [CallResult.document.injEq] at hdoc
            rw [← hdoc]
            apply trimSuffixNL_ne_nil
            obtain ⟨pre, hpre⟩ := separatorBlock_eq_append env resp
            rw [hpre]
            simp only [List.length_append, List.length_cons, List.length_nil]
            have : (ascii "#").length = 1 := by decide
            omega
    · simp [makeAPICall, hstop] at hdoc

/-- C14: on a response with the stop reason `end_turn` whose first text is
the closing tag line of a section alone, `makeAPICall` neither returns an
error nor a document: `extractMessages` panics at the dereference of the nil
`builder`. -/
theorem makeAPICall_panics_on_unopened_close (env : Env) :
    makeAPICall env unopenedResponse = .panic
      ∧ unopenedResponse.StopReason = ascii "end_turn"
      ∧ unopenedResponse.Content.head? = some (ascii "</commit-message>") := by
  refine ⟨?_, rfl, rfl⟩
  have h : extractMessages (ascii "</commit-message>") = none := by decide
  have hne : ascii "</commit-message>" ≠ [] := by decide
  simp [makeAPICall, unopenedResponse, h, hne]


/-! ## Theorems: tag lines are compared untrimmed -/

theorem not_mem_of_mem_splitLines (s : Str) : ∀ l ∈ splitLines s, NL ∉ l := by
  induction s with
  | nil => intro l hl; simp [splitLines] at hl; simp [hl]
  | cons c s ih =>
    intro l hl
    simp only [splitLines] at hl
    by_cases hc : c = NL
    · simp only [hc, if_true, List.mem_cons] at hl
      rcases hl with rfl | hl
      · simp
      · exact ih l hl
    · simp only [hc, if_false] at hl
      cases hs : splitLines s with
      | nil => exact absurd hs (splitLines_ne_nil s)
      | cons l0 ls =>
        rw [hs] at hl ih
        simp only [List.mem_cons] at hl
        rcases hl with rfl | hl
        · intro hmem
          rcases List.mem_cons.mp hmem with e | hmem
          · exact hc e.symm
          · exact ih l0 (by simp) hmem
        · exact ih l (by simp [hl])

/-- The replacement of each newline by a newline and `# `, on a text that
follows a prefix `p`, prefixes with `# ` every line but the first. -/
theorem append_replaceNL (s : Str) : ∀ p : Str,
    p ++ replaceNL s
      = joinLines ((p ++ (splitLines s).headD []) :: (splitLines s).tail.map
          (fun l => ascii "# " ++ l)) := by
  induction s with
  | nil => intro p; simp [replaceNL, splitLines, joinLines]
  | cons c s ih =>
    intro p
    cases hs : splitLines s with
    | nil => exact absurd hs (splitLines_ne_nil s)
    | cons l0 ls =>
      by_cases hc : c = NL
      · have h := ih (ascii "# ")
        rw [hs] at h
        simp only [List.headD_cons, List.tail_cons] at h
        simp only [replaceNL, splitLines, hc, if_true, hs, List.headD_cons, List.tail_cons,
          List.map_cons, List.append_nil, joinLines_cons_cons]
        rw [← h]
        rfl
      · have h := ih (p ++ [c])
        rw [hs] at h
        simp only [List.headD_cons, List.tail_cons] at h
        simp only [replaceNL, splitLines, hc, if_false, hs, List.headD_cons, List.tail_cons]
        rw [show p ++ c :: replaceNL s = (p ++ [c]) ++ replaceNL s from by simp, h]
        simp

theorem prefix_replaceNL (s : Str) :
    ascii "# " ++ replaceNL s = joinLines ((splitLines s).map (fun l => ascii "# " ++ l)) := by
  rw [append_replaceNL s (ascii "# ")]
  cases hs : splitLines s with
  | nil => exact absurd hs (splitLines_ne_nil s)
  | cons l0 ls => simp

/-- C16: for every title without a newline and every text `out` returned by
the wrapper, the result of `formatWarning` is made of newline-terminated
lines: the line `# **<title>**`, the line `# `, and the lines of `out` in
order, each prefixed with `# ` (an empty line of `out` becoming `# `); every
one of these lines begins with `# ` and holds no newline. -/
theorem formatWarning_lines (env : Env) (title content out : Str) (htitle : NL ∉ title)
    (hout : env.pandoc 70 (TransformText (stringsNewReader content)).bytes = some out) :
    formatWarning env title content
        = writeLines ([ascii "# **" ++ title ++ ascii "**", ascii "# "]
            ++ (splitLines out).map (fun l => ascii "# " ++ l))
      ∧ (∀ l ∈ [ascii "# **" ++ title ++ ascii "**", ascii "# "]
            ++ (splitLines out).map (fun l => ascii "# " ++ l),
          hasPrefix l (ascii "# ") = true ∧ NL ∉ l) := by
  constructor
  · have e1 : ascii "**\n# \n# " = ascii "**" ++ [NL] ++ (ascii "# " ++ [NL]) ++ ascii "# " := by
      decide
    have e2 : ascii "\n" = [NL] := by decide
    have hne : (splitLines out).map (fun l => ascii "# " ++ l) ≠ [] := by
      simp [splitLines_ne_nil]
    simp only [formatWarning, hout, e1, e2]
    rw [writeLines_append, writeLines_eq_joinLines _ hne, ← prefix_replaceNL]
    simp [writeLines]
  · intro l hl
    simp only [List.mem_append, List.mem_cons, List.mem_singleton, List.not_mem_nil, or_false,
      List.mem_map] at hl
    rcases hl with (rfl | rfl) | ⟨l0, hl0, rfl⟩
    · refine ⟨rfl, ?_⟩
      intro hmem
      simp only [List.mem_append] at hmem
      rcases hmem with (h | h) | h
      · exact absurd h (by decide)
      · exact htitle h
      · exact absurd h (by decide)
    · exact ⟨rfl, by decide⟩
    · refine ⟨by simp [hasPrefix], ?_⟩
      intro hmem
      rcases List.mem_append.mp hmem with h | h
      · exact absurd h (by decide)
      · exact not_mem_of_mem_splitLines out l0 hl0 h

/-- Witness of C16: a wrapped text of three lines, one of them empty, with a
wrapper whose output ends with a newline. -/
theorem formatWarning_lines_witness :
    formatWarning newlineEnv (ascii "Large Files Warning") (ascii "big:\n\n- f.bin")
        = ascii "# **Large Files Warning**\n# \n# big:\n# \n# - f.bin\n# \n"
      ∧ (∀ l ∈ [ascii "# **" ++ ascii "Large Files Warning" ++ ascii "**", ascii "# "]
            ++ (splitLines (ascii "big:\n\n- f.bin\n")).map (fun l => ascii "# " ++ l),
          hasPrefix l (ascii "# ") = true ∧ NL ∉ l) :=
  ⟨(formatWarning_lines newlineEnv (ascii "Large Files Warning") (ascii "big:\n\n- f.bin")
      (ascii "big:\n\n- f.bin\n") (by decide) (by decide)).1.trans (by decide),
   (formatWarning_lines newlineEnv (ascii "Large Files Warning") (ascii "big:\n\n- f.bin")
      (ascii "big:\n\n- f.bin\n") (by decide) (by decide)).2⟩


/-! ## Theorems: the output of `TransformText` holds no colon, newline, bullet -/

theorem hasColonNewlineBullet_cons (a b c : Byte) (rest : Str) :
    hasColonNewlineBullet (a :: b :: c :: rest)
      = ((a == COLON && b == NL && isBullet c) || hasColonNewlineBullet (b :: c :: rest)) := by
  rw [hasColonNewlineBullet]

theorem hasColonNewlineBullet_normFrom (X : Str) : ∀ (p0 p1 : Byte),
    hasColonNewlineBullet (p0 :: p1 :: normFrom p0 p1 X) = false := by
  induction X with
  | nil => intro p0 p1; rfl
  | cons b rest ih =>
    intro p0 p1
    by_cases hc : (p0, p1) = (COLON, NL) ∧ isBullet b = true
    · rw [normFrom, if_pos hc]
      obtain ⟨hp, _⟩ := hc
      simp only [Prod.mk.injEq] at hp
      obtain ⟨rfl, rfl⟩ := hp
      rw [hasColonNewlineBullet_cons, hasColonNewlineBullet_cons, ih NL b]
      have e1 : isBullet NL = false := by decide
      have e2 : (NL == COLON) = false := by decide
      simp [e1, e2]
    · rw [normFrom, if_neg hc, hasColonNewlineBullet_cons, ih p1 b]
      simp only [Prod.mk.injEq, not_and, Bool.not_eq_true] at hc
      by_cases h0 : p0 = COLON
      · by_cases h1 : p1 = NL
        · simp [hc ⟨h0, h1⟩]
        · simp [h1]
      · simp [h0]

/-- The bytes of the stream of `TransformText`, for every reader: nothing, or
two bytes followed by the normalisation of the bytes that follow them. -/
theorem TransformText_bytes_shape (r : Reader) :
    (TransformText r).bytes = []
      ∨ ∃ (l0 l1 : Byte) (X : Str), (TransformText r).bytes = l0 :: l1 :: normFrom l0 l1 X := by
  unfold TransformText
  rcases Read_cases r 2 with ⟨bs, hr, _⟩ | ⟨bs, e, hr, _⟩ | ⟨bs, r1, hr, _, _⟩
  · left; simp [hr]
  · left; simp [hr]
  · rw [hr]
    simp only []
    split
    · rcases Read_cases r1 1 with ⟨bs2, hr2, _⟩ | ⟨bs2, e, hr2, _⟩ | ⟨bs2, r2, hr2, _, _⟩
      · left; simp [hr2]
      · left; simp [hr2]
      · right
        rw [hr2]
        simp only []
        obtain ⟨X, hX⟩ := transformLoop_shape _ r2 (bs.getD 0 0, bs2.getD 0 0)
          [bs.getD 0 0, bs2.getD 0 0] (Nat.lt_succ_self _)
        rw [hX]
        exact ⟨_, _, X, rfl⟩
    · right
      obtain ⟨X, hX⟩ := transformLoop_shape _ r1 (bs.getD 0 0, bs.getD 1 0)
        [bs.getD 0 0, bs.getD 1 0] (Nat.lt_succ_self _)
      rw [hX]
      exact ⟨_, _, X, rfl⟩

/-- C22: for every reader, whatever its chunks and its end, with or without
bytes returned together with the end, the bytes of the stream of
`TransformText` never hold a colon and a newline immediately followed by
`*`, `+` or `-`. -/
theorem TransformText_output_has_no_colon_newline_bullet (r : Reader) :
    hasColonNewlineBullet (TransformText r).bytes = false := by
  rcases TransformText_bytes_shape r with h | ⟨l0, l1, X, h⟩
  · rw [h]; rfl
  · rw [h]; exact hasColonNewlineBullet_normFrom X l0 l1

/-- C23: the output of `TransformText` on any reader, fed back to
`TransformText` in any split into non-empty chunks, the end of the stream
coming in a read of its own as it does from the pipe of `TransformText` and
from `strings.NewReader`, comes out unchanged. -/
theorem TransformText_idempotent (r : Reader) (chunks : List Str)
    (hne : ∀ c ∈ chunks, c ≠ []) (hsplit : chunks.flatten = (TransformText r).bytes) :
    TransformText ⟨chunks, none, []⟩ = ⟨(TransformText r).bytes, none⟩ := by
  have hno := hasColonNewlineBullet_normFrom
  rcases TransformText_bytes_shape r with h | ⟨l0, l1, X, h⟩
  · rw [h] at hsplit ⊢
    cases chunks with
    | nil => rfl
    | cons c cs =>
      have hc : c = [] := by
        have := congrArg List.length hsplit
        simp only [List.flatten_cons, List.length_append, List.length_nil] at this
        exact List.length_eq_zero.mp (by omega)
      exact absurd hc (hne c (by simp))
  · rw [← hsplit]
    apply TransformText_unchanged_of_two_le chunks none _ hne
    · rw [hsplit, h]; exact hno X l0 l1
    · rw [hsplit, h]; simp

/-- Witness of C23: the output for the input of the test, fed back in one
chunk, is unchanged. -/
theorem TransformText_idempotent_witness :
    TransformText ⟨[ascii "Warning: ...:\n\n- Line 5"], none, []⟩
      = ⟨(TransformText ⟨[ascii "Warning: ...:\n- Line 5"], none, []⟩).bytes, none⟩ :=
  TransformText_idempotent ⟨[ascii "Warning: ...:\n- Line 5"], none, []⟩
    [ascii "Warning: ...:\n\n- Line 5"] (by decide) (by decide)


/-! ## Theorems: templates without header or separator, repeated blocks -/

theorem skipToHeader_of_no_header (lines : List Str)
    (h : ∀ l ∈ lines, hasPrefix l helpHeader = false) : skipToHeader lines = [] := by
  induction lines with
  | nil => rfl
  | cons l lines ih =>
    simp only [skipToHeader, h l (by simp)]
    exact ih (fun x hx => h x (List.mem_cons_of_mem _ hx))

theorem skipToSeparator_of_no_separator (lines : List Str)
    (h : ∀ l ∈ lines, l ≠ ascii "#") : skipToSeparator lines = [] := by
  induction lines with
  | nil => rfl
  | cons l lines ih =>
    simp only [skipToSeparator, if_neg (h l (by simp))]
    exact ih (fun x hx => h x (List.mem_cons_of_mem _ hx))

/-- C25: if no line of the template starts with the help header, or no line
equal to `#` follows the first line that starts with it,
`handleVerboseContent` returns the empty string. -/
theorem handleVerboseContent_without_header_or_separator (content : Str)
    (h : (∀ l ∈ splitLines content, hasPrefix l helpHeader = false)
      ∨ ∃ (P : List Str) (hd : Str) (rest : List Str),
          splitLines content = P ++ hd :: rest
            ∧ (∀ l ∈ P, hasPrefix l helpHeader = false)
            ∧ hasPrefix hd helpHeader = true
            ∧ ∀ l ∈ rest, l ≠ ascii "#") :
    handleVerboseContent content = [] := by
  rcases h with h | ⟨P, hd, rest, hlines, hP, hhd, hrest⟩
  · show trimSuffixNL (copyLoop
      ((skipToSeparator ((skipToHeader (splitLines content)).drop 1)).drop 1) []) = []
    rw [skipToHeader_of_no_header _ h]
    rfl
  · show trimSuffixNL (copyLoop
      ((skipToSeparator ((skipToHeader (splitLines content)).drop 1)).drop 1) []) = []
    rw [hlines, skipToHeader_append P hd rest hP hhd]
    show trimSuffixNL (copyLoop ((skipToSeparator rest).drop 1) []) = []
    rw [skipToSeparator_of_no_separator rest hrest]
    rfl

/-- Witness of C25: a template without the help header, and a template whose
header is followed by no `#` line. -/
theorem handleVerboseContent_without_header_or_separator_witness :
    handleVerboseContent (ascii "# If applied, this commit will...\n#\n# On branch main\n") = []
      ∧ handleVerboseContent (ascii "x\n# Please enter the commit message for your changes. Lines\n# On branch main\n# ------------------------ >8 ------------------------\ndiff\n") = [] :=
  ⟨handleVerboseContent_without_header_or_separator _ (Or.inl (by decide)),
   handleVerboseContent_without_header_or_separator _
    (Or.inr ⟨[ascii "x"], ascii "# Please enter the commit message for your changes. Lines",
      [ascii "# On branch main", ascii "# ------------------------ >8 ------------------------",
       ascii "diff", []],
      by decide, by decide, by decide, by decide⟩)⟩

theorem commitBlocks_append (parts : Key → Str) (a b : List (Key × List Str)) :
    commitBlocks parts (a ++ b) = commitBlocks (commitBlocks parts a) b := by
  simp [commitBlocks, List.foldl_append]

theorem commitBlocks_last (parts : Key → Str) (pre post : List (Key × List Str)) (k : Key)
    (c : List Str) (hlast : k ∉ post.map Prod.fst) :
    commitBlocks parts (pre ++ (k, c) :: post) k = writeLines c := by
  rw [commitBlocks_append]
  show commitBlocks (Function.update (commitBlocks parts pre) k (writeLines c)) post k = _
  rw [commitBlocks_of_not_mem post k hlast]
  simp

/-- C26: when the tag pair of a key occurs more than once as well-formed
blocks in the text, the slot of the key holds the content of the last of
these blocks only: for blocks `pre ++ [(k, c)] ++ post` with no block of `k`
in `post`, whatever the blocks of `pre`, the slot of `k` is the content `c`
joined by newlines. -/
theorem extractMessages_last_block_wins (pre post : List (Key × List Str)) (k : Key)
    (c : List Str)
    (hwf : ∀ b ∈ pre ++ (k, c) :: post, ∀ l ∈ b.2, NL ∉ l ∧ isTagLine l = false)
    (hlast : k ∉ post.map Prod.fst) :
    ∃ m : Messages,
      extractMessages (blocksText (pre ++ (k, c) :: post)) = some m ∧ m.get k = joinLines c := by
  refine ⟨_, extractMessages_blocksText _ hwf, ?_⟩
  have h := commitBlocks_last (fun _ => []) pre post k c hlast
  cases k <;> simp [Messages.get, h, trimSuffixNL_writeLines]

/-- Witness of C26: two commit message blocks followed by a thought; the
slot of the commit message holds the second block only. -/
theorem extractMessages_last_block_wins_witness :
    ∃ m : Messages,
      extractMessages (blocksText ([(.commitMessage, [ascii "first"])]
          ++ (.commitMessage, [ascii "second", ascii "line"]) :: [(.thought, [ascii "why"])]))
        = some m
      ∧ m.get .commitMessage = joinLines [ascii "second", ascii "line"] :=
  extractMessages_last_block_wins
    [(.commitMessage, [ascii "first"])] [(.thought, [ascii "why"])] .commitMessage
    [ascii "second", ascii "line"] (by decide) (by decide)

/-! ## Theorems: the lines kept by `handleVerboseContent` -/

theorem copyLoop_kept : ∀ (n : Nat) (lines : List Str) (acc : Str), lines.length ≤ n →
    ∃ kept : List Str, kept.Sublist lines ∧ (∀ l ∈ kept, l ≠ scissors)
      ∧ copyLoop lines acc = acc ++ writeLines kept := by
  intro n
  induction n with
  | zero =>
    intro lines acc h
    have : lines = [] := List.length_eq_zero.mp (Nat.le_zero.mp h)
    subst this
    exact ⟨[], List.Sublist.slnil, by simp, by simp [copyLoop, writeLines]⟩
  | succ n ih =>
    intro lines acc h
    match lines, h with
    | [], _ => exact ⟨[], List.Sublist.slnil, by simp, by simp [copyLoop, writeLines]⟩
    | l :: rest, h =>
      by_cases hl : l = scissors
      · subst hl
        match rest, h with
        | [], _ => exact ⟨[], List.nil_sublist _, by simp, by simp [copyLoop, writeLines]⟩
        | [x], _ => exact ⟨[], List.nil_sublist _, by simp, by simp [copyLoop, writeLines]⟩
        | x :: y :: rest2, h =>
          obtain ⟨kept, hsub, hne, heq⟩ := ih rest2 acc (by simp at h; omega)
          refine ⟨kept, ?_, hne, ?_⟩
          · exact ((hsub.cons y).cons x).cons scissors
          · rw [copyLoop_scissors, heq]
      · obtain ⟨kept, hsub, hne, heq⟩ := ih rest (acc ++ l ++ [NL]) (by simp at h; omega)
        refine ⟨l :: kept, hsub.cons₂ l, ?_, ?_⟩
        · intro x hx
          rcases List.mem_cons.mp hx with rfl | hx
          · exact hl
          · exact hne x hx
        · rw [copyLoop_cons_of_ne _ _ _ hl, heq]
          simp [writeLines]

theorem skipToHeader_sublist (lines : List Str) : (skipToHeader lines).Sublist lines := by
  induction lines with
  | nil => exact List.Sublist.slnil
  | cons l lines ih =>
    simp only [skipToHeader]
    split
    · exact List.Sublist.refl _
    · exact ih.cons l

theorem skipToSeparator_sublist (lines : List Str) :
    (skipToSeparator lines).Sublist lines := by
  induction lines with
  | nil => exact List.Sublist.slnil
  | cons l lines ih =>
    simp only [skipToSeparator]
    split
    · exact List.Sublist.refl _
    · exact ih.cons l

/-- The result of `handleVerboseContent` is made of lines of the template,
in the order of the template, none of them the scissors line. -/
theorem handleVerboseContent_kept (content : Str) :
    ∃ kept : List Str, kept.Sublist (splitLines content) ∧ (∀ l ∈ kept, l ≠ scissors)
      ∧ handleVerboseContent content = joinLines kept := by
  obtain ⟨kept, hsub, hne, heq⟩ := copyLoop_kept _
    ((skipToSeparator ((skipToHeader (splitLines content)).drop 1)).drop 1) [] (Nat.le_refl _)
  refine ⟨kept, ?_, hne, ?_⟩
  · exact hsub.trans ((List.drop_sublist 1 _).trans ((skipToSeparator_sublist _).trans
      ((List.drop_sublist 1 _).trans (skipToHeader_sublist _))))
  · show trimSuffixNL (copyLoop
      ((skipToSeparator ((skipToHeader (splitLines content)).drop 1)).drop 1) []) = _
    rw [heq, List.nil_append, trimSuffixNL_writeLines]

/-- C24: for every template content, no line of the result of
`handleVerboseContent` is the scissors line, and the lines of a result that
is not empty are lines of the template, in the order of the template (an
empty result has no line). -/
theorem handleVerboseContent_lines (content : Str) :
    (∀ l ∈ splitLines (handleVerboseContent content), l ≠ scissors)
      ∧ (handleVerboseContent content ≠ []
          → (splitLines (handleVerboseContent content)).Sublist (splitLines content)) := by
  obtain ⟨kept, hsub, hne, heq⟩ := handleVerboseContent_kept content
  rw [heq]
  cases hk : kept with
  | nil =>
    refine ⟨?_, fun h => absurd rfl h⟩
    intro l hl
    simp only [joinLines, splitLines, List.mem_singleton] at hl
    rw [hl]
    decide
  | cons k0 ks =>
    have hnl : ∀ l ∈ kept, NL ∉ l :=
      fun l hl => not_mem_of_mem_splitLines content l (hsub.subset hl)
    have hlines : splitLines (joinLines kept) = kept := by
      rw [splitLines_joinLines kept (by rw [hk]; simp), flatMap_splitLines_of_not_mem kept hnl]
    rw [← hk, hlines]
    exact ⟨hne, fun _ => hsub⟩

/-- Witness of C24: a template with the scissors line at three places, one
of them inside the lines skipped after another. -/
theorem handleVerboseContent_lines_witness :
    (∀ l ∈ splitLines (handleVerboseContent (ascii "# Please enter the commit message for your changes.\n#\na\n# ------------------------ >8 ------------------------\n# ------------------------ >8 ------------------------\nb\nc\n# ------------------------ >8 ------------------------")),
        l ≠ scissors)
      ∧ (handleVerboseContent (ascii "# Please enter the commit message for your changes.\n#\na\n# ------------------------ >8 ------------------------\n# ------------------------ >8 ------------------------\nb\nc\n# ------------------------ >8 ------------------------") ≠ []
          → (splitLines (handleVerboseContent (ascii "# Please enter the commit message for your changes.\n#\na\n# ------------------------ >8 ------------------------\n# ------------------------ >8 ------------------------\nb\nc\n# ------------------------ >8 ------------------------"))).Sublist
              (splitLines (ascii "# Please enter the commit message for your changes.\n#\na\n# ------------------------ >8 ------------------------\n# ------------------------ >8 ------------------------\nb\nc\n# ------------------------ >8 ------------------------")))
      ∧ handleVerboseContent (ascii "# Please enter the commit message for your changes.\n#\na\n# ------------------------ >8 ------------------------\n# ------------------------ >8 ------------------------\nb\nc\n# ------------------------ >8 ------------------------")
          = ascii "a\nc" :=
  ⟨(handleVerboseContent_lines _).1, (handleVerboseContent_lines _).2, by decide⟩


/-! ## Theorems: the document of a single-line commit message -/

theorem digitChar_toNat_ne_NL (k : Nat) (hk : k < 10) : (Nat.digitChar k).toNat ≠ NL := by
  interval_cases k <;> decide

theorem toDigitsCore_toNat_ne_NL : ∀ (fuel n : Nat) (ds : List Char),
    (∀ c ∈ ds, c.toNat ≠ NL) → ∀ c ∈ Nat.toDigitsCore 10 fuel n ds, c.toNat ≠ NL := by
  intro fuel
  induction fuel with
  | zero => intro n ds h c hc; exact h c (by simpa [Nat.toDigitsCore] using hc)
  | succ fuel ih =>
    intro n ds h c hc
    have hds : ∀ c ∈ Nat.digitChar (n % 10) :: ds, c.toNat ≠ NL := by
      intro c hc
      rcases List.mem_cons.mp hc with rfl | hc
      · exact digitChar_toNat_ne_NL _ (Nat.mod_lt _ (by decide))
      · exact h c hc
    simp only [Nat.toDigitsCore] at hc
    split at hc
    · exact hds c hc
    · exact ih _ _ hds c hc

theorem repr_toNat_ne_NL (n : Nat) : ∀ c ∈ (Nat.repr n).toList, c.toNat ≠ NL := by
  intro c hc
  exact toDigitsCore_toNat_ne_NL _ _ [] (by simp) c hc

theorem sprintfInt_no_NL (n : Int) : NL ∉ sprintfInt n := by
  intro h
  simp only [sprintfInt, ascii, List.mem_map] at h
  obtain ⟨c, hc, hcn⟩ := h
  cases n with
  | ofNat m => exact repr_toNat_ne_NL m c hc hcn
  | negSucc m =>
    have hc2 : c ∈ "-".toList ++ (Nat.repr (m + 1)).toList := by
      simpa [toString, instToStringInt] using hc
    rcases List.mem_append.mp hc2 with h1 | h1
    · have hc3 : c = '-' := by simpa using h1
      rw [hc3] at hcn
      exact absurd hcn (by decide)
    · exact repr_toNat_ne_NL _ c h1 hcn

theorem hasPrefix_append_false (p q x : Str) (h : hasPrefix p q = false)
    (hlen : q.length ≤ p.length) : hasPrefix (p ++ x) q = false := by
  simp only [hasPrefix, Bool.eq_false_iff, ne_eq, List.isPrefixOf_iff_prefix] at h ⊢
  intro hpre
  exact h (List.prefix_of_prefix_length_le hpre (List.prefix_append p x) hlen)

theorem append_ne_of_not_prefix (p x s : Str) (h : hasPrefix s p = false) : p ++ x ≠ s := by
  simp only [hasPrefix, Bool.eq_false_iff, ne_eq, List.isPrefixOf_iff_prefix] at h
  intro e
  exact h ⟨x, e⟩

theorem separatorBlock_eq_separatorLines (env : Env) (resp : ApiResponse) :
    separatorBlock env resp = writeLines (separatorLines env resp) :=
  separatorBlock_eq_writeLines env resp

theorem separatorLines_props (env : Env) (resp : ApiResponse) (hid : NL ∉ resp.Id)
    (hcost : ∀ n p, NL ∉ env.sprintfCost n p) :
    (∀ l ∈ separatorLines env resp, NL ∉ l ∧ hasPrefix l (ascii "# **") = false)
      ∧ ∃ tail : List Str, separatorLines env resp = scissors :: tail ∧ scissors ∉ tail := by
  have n1 : NL ∉ ascii "# API ID: " := by decide
  have n2 : NL ∉ ascii "# Input tokens: " := by decide
  have n3 : NL ∉ ascii "# Output tokens: " := by decide
  have n4 : NL ∉ ascii " ($" := by decide
  have n5 : NL ∉ ascii ")" := by decide
  have b1 := hasPrefix_append_false (ascii "# API ID: ") (ascii "# **") resp.Id
    (by decide) (by decide)
  have b2 := fun x => hasPrefix_append_false (ascii "# Input tokens: ") (ascii "# **") x
    (by decide) (by decide)
  have b3 := fun x => hasPrefix_append_false (ascii "# Output tokens: ") (ascii "# **") x
    (by decide) (by decide)
  have s1 := append_ne_of_not_prefix (ascii "# API ID: ") resp.Id scissors (by decide)
  have s2 := fun x => append_ne_of_not_prefix (ascii "# Input tokens: ") x scissors (by decide)
  have s3 := fun x => append_ne_of_not_prefix (ascii "# Output tokens: ") x scissors (by decide)
  constructor
  · intro l hl
    simp only [separatorLines, List.mem_cons, List.mem_singleton, List.not_mem_nil, or_false,
      List.append_assoc] at hl
    rcases hl with rfl | rfl | rfl | rfl | rfl | rfl | rfl | rfl
    · decide
    · decide
    · decide
    · decide
    · exact ⟨by simp [n1, hid], b1⟩
    · exact ⟨by simp [n2, n4, n5, sprintfInt_no_NL, hcost], b2 _⟩
    · exact ⟨by simp [n3, n4, n5, sprintfInt_no_NL, hcost], b3 _⟩
    · decide
  · refine ⟨_, rfl, ?_⟩
    simp only [List.mem_cons, List.mem_singleton, List.not_mem_nil, or_false, not_or,
      List.append_assoc]
    refine ⟨by decide, by decide, by decide, ?_, ?_, ?_, by decide⟩
    · exact fun e => s1 e.symm
    · exact fun e => s2 _ e.symm
    · exact fun e => s3 _ e.symm

theorem splitLines_writeLines_append (L : List Str) (R : Str) (h : ∀ l ∈ L, NL ∉ l) :
    splitLines (writeLines L ++ R) = L ++ splitLines R := by
  induction L with
  | nil => rfl
  | cons l L ih =>
    have e : writeLines (l :: L) ++ R = l ++ NL :: (writeLines L ++ R) := by
      simp [writeLines]
    rw [e, splitLines_append_NL, splitLines_of_not_mem l (h l (by simp)),
      ih (fun x hx => h x (List.mem_cons_of_mem _ hx))]
    rfl

theorem hasColonNewlineBullet_of_no_NL (xs : Str) (h : NL ∉ xs) :
    hasColonNewlineBullet xs = false := by
  induction xs with
  | nil => rfl
  | cons a t ih =>
    have ht : NL ∉ t := fun e => h (List.mem_cons_of_mem _ e)
    match t, ht, ih with
    | [], _, _ => rfl
    | [b], _, _ => rfl
    | b :: c :: rest, ht, ih =>
      have hb : b ≠ NL := fun e => ht (by simp [e])
      rw [hasColonNewlineBullet_cons, ih ht]
      simp [hb]

theorem TransformText_single_line (m : Str) (hline : NL ∉ m) (hlen : 2 ≤ m.length) :
    (TransformText (stringsNewReader m)).bytes = m := by
  have hne : m ≠ [] := by
    intro e; rw [e] at hlen; simp at hlen
  have h := TransformText_unchanged_of_two_le [m] none (by simpa using hlen)
    (by simpa using hne) (by simpa using hasColonNewlineBullet_of_no_NL m hline)
  simp only [stringsNewReader, if_neg hne, h]
  simp


theorem writeLines_replicate_nil (j : Nat) :
    writeLines (List.replicate j []) = List.replicate j NL := by
  induction j with
  | zero => rfl
  | succ j ih =>
    have e : writeLines (List.replicate (j + 1) []) = NL :: writeLines (List.replicate j []) := by
      simp [writeLines, List.replicate_succ]
    rw [e, ih, List.replicate_succ]

/-- The lines of the document of a completion without warnings whose commit
message is a single line of at least two bytes that the wrapper returns
unchanged, followed by `j` newlines: the message, `j` empty lines, the
separator lines and, with a thought, the intro comment line and the lines of
the rendered thought. -/
theorem makeAPICall_single_line_lines (env : Env) (resp : ApiResponse) (text : Str)
    (others : List Str) (msgs : Messages) (m : Str) (j : Nat)
    (hstop : resp.StopReason = ascii "end_turn")
    (hcontent : resp.Content = text :: others) (htext : text ≠ [])
    (hm : extractMessages text = some msgs)
    (hs : msgs.sensitiveWarn = []) (hl : msgs.largeFilesWarn = [])
    (hc : msgs.commitMessage = m) (hline : NL ∉ m) (hlen : 2 ≤ m.length)
    (hwrap : env.pandoc 72 m = some (m ++ List.replicate j NL))
    (hid : NL ∉ resp.Id) (hcost : ∀ n p, NL ∉ env.sprintfCost n p) :
    documentLines (makeAPICall env resp)
      = (m :: List.replicate j []) ++ separatorLines env resp
        ++ (if msgs.thought ≠ [] then
            ascii "# Below is the thought process that created the above message."
              :: splitLines (formatPlain env msgs.thought)
          else []) := by
  have hmne : m ≠ [] := by
    intro e; rw [e] at hlen; simp at hlen
  have hplain : formatPlain env m = writeLines (m :: List.replicate j []) := by
    have e2 : ascii "\n" = [NL] := by decide
    have e3 : writeLines (m :: List.replicate j [])
        = m ++ [NL] ++ writeLines (List.replicate j []) := by
      simp [writeLines]
    rw [e3, writeLines_replicate_nil]
    simp only [formatPlain, TransformText_single_line m hline hlen, hwrap, e2,
      List.append_assoc]
    rw [← List.replicate_succ', List.replicate_succ]
    rfl
  have e1 : ascii "# Below is the thought process that created the above message.\n"
      = writeLines [ascii "# Below is the thought process that created the above message."] := by
    decide
  have hnl : ∀ l ∈ (m :: List.replicate j []) ++ separatorLines env resp, NL ∉ l := by
    intro l hl
    rcases List.mem_append.mp hl with h | h
    · rcases List.mem_cons.mp h with h | h
      · rw [h]; exact hline
      · rw [(List.mem_replicate.mp h).2]; simp
    · exact ((separatorLines_props env resp hid hcost).1 l h).1
  rw [makeAPICall_of_messages env resp text others msgs hstop hcontent htext hm,
    separatorBlock_eq_separatorLines]
  simp only [hs, hl, hc, ne_eq, not_true_eq_false, if_false, if_neg (not_not.mpr rfl),
    if_pos hmne, List.nil_append, hplain, documentLines, ← writeLines_append]
  by_cases ht : msgs.thought = []
  · rw [if_neg (not_not.mpr ht), if_neg (not_not.mpr ht), List.append_nil, List.append_nil,
      trimSuffixNL_writeLines, splitLines_joinLines _ (by simp),
      flatMap_splitLines_of_not_mem _ hnl]
  · rw [if_pos ht, if_pos ht, e1, ← List.append_assoc, ← List.append_assoc,
      trimSuffixNL_append_NL, ← writeLines_append, splitLines_writeLines_append]
    · simp
    · intro l hl
      rcases List.mem_append.mp hl with h | h
      · exact hnl l h
      · rw [List.mem_singleton.mp h]; decide

/-- C21, as stated, fails: with a wrapper that returns its input unchanged
and no warning and no thought, a commit message that begins with `# **`
gives a document with a line beginning `# **`, and a commit message equal to
the scissors line gives a document with two scissors lines; and with the
commit message `feat: add X`, an API id that holds a newline followed by
`# **` gives a document with a line beginning `# **` too. -/
theorem makeAPICall_message_lines_not_filtered :
    extractMessages (joinLines [openTag .commitMessage, ascii "# **not a warning**",
          closeTag .commitMessage])
        = some ⟨[], [], [], ascii "# **not a warning**"⟩
      ∧ exampleEnv.pandoc 72 (ascii "# **not a warning**") = some (ascii "# **not a warning**")
      ∧ (documentLines (makeAPICall exampleEnv (messageResponse (ascii "# **not a warning**")))).any
          (fun l => hasPrefix l (ascii "# **")) = true
      ∧ extractMessages (joinLines [openTag .commitMessage, scissors, closeTag .commitMessage])
        = some ⟨[], [], [], scissors⟩
      ∧ exampleEnv.pandoc 72 scissors = some scissors
      ∧ (documentLines (makeAPICall exampleEnv (messageResponse scissors))).count scissors
        = 2
      ∧ (documentLines (makeAPICall exampleEnv (responseWithId (ascii "1\n# **x")))).any
          (fun l => hasPrefix l (ascii "# **")) = true := by
  decide

/-- C21, amended: for every successful completion whose two warning sections
are empty and whose commit message is a single line `m` of at least two
bytes that the wrapper returns unchanged, followed by any number `j` of
newlines (none for a wrapper that echoes its input, one for `pandoc`), `m`
neither beginning with `# **` nor being the scissors line, the API id and
the rendered costs holding no newline, and the rendered thought, if any,
holding no line that begins with `# **` and no scissors line: the document
holds no line beginning with `# **`, it holds the line `m`, without prefix,
before the scissors line, and it holds the scissors line exactly once. -/
theorem makeAPICall_single_line_message (env : Env) (resp : ApiResponse) (text : Str)
    (others : List Str) (msgs : Messages) (m : Str) (j : Nat)
    (hstop : resp.StopReason = ascii "end_turn")
    (hcontent : resp.Content = text :: others) (htext : text ≠ [])
    (hm : extractMessages text = some msgs)
    (hs : msgs.sensitiveWarn = []) (hl : msgs.largeFilesWarn = [])
    (hc : msgs.commitMessage = m) (hline : NL ∉ m) (hlen : 2 ≤ m.length)
    (hwrap : env.pandoc 72 m = some (m ++ List.replicate j NL))
    (hbold : hasPrefix m (ascii "# **") = false) (hsc : m ≠ scissors)
    (hid : NL ∉ resp.Id) (hcost : ∀ n p, NL ∉ env.sprintfCost n p)
    (hthought : msgs.thought ≠ [] → ∀ l ∈ splitLines (formatPlain env msgs.thought),
      hasPrefix l (ascii "# **") = false ∧ l ≠ scissors) :
    (∀ l ∈ documentLines (makeAPICall env resp), hasPrefix l (ascii "# **") = false)
      ∧ (∃ pre mid rest,
          documentLines (makeAPICall env resp) = pre ++ m :: (mid ++ scissors :: rest))
      ∧ (documentLines (makeAPICall env resp)).count scissors = 1 := by
  rw [makeAPICall_single_line_lines env resp text others msgs m j hstop hcontent htext hm hs hl
    hc hline hlen hwrap hid hcost]
  obtain ⟨hsep, tail, htail, hnot⟩ := separatorLines_props env resp hid hcost
  have hT : ∀ l ∈ (if msgs.thought ≠ [] then
        ascii "# Below is the thought process that created the above message."
          :: splitLines (formatPlain env msgs.thought)
      else []), hasPrefix l (ascii "# **") = false ∧ l ≠ scissors := by
    intro l hl
    by_cases ht : msgs.thought = []
    · rw [if_neg (not_not.mpr ht)] at hl; simp at hl
    · rw [if_pos ht] at hl
      rcases List.mem_cons.mp hl with rfl | h
      · decide
      · exact hthought ht l h
  have hM : ∀ l ∈ m :: List.replicate j [], hasPrefix l (ascii "# **") = false ∧ l ≠ scissors := by
    intro l hl
    rcases List.mem_cons.mp hl with h | h
    · rw [h]; exact ⟨hbold, hsc⟩
    · rw [(List.mem_replicate.mp h).2]; decide
  refine ⟨?_, ?_, ?_⟩
  · intro l hl
    rcases List.mem_append.mp hl with h | h
    · rcases List.mem_append.mp h with h | h
      · exact (hM l h).1
      · exact (hsep l h).2
    · exact (hT l h).1
  · rw [htail]
    exact ⟨[], List.replicate j [],
      tail ++ (if msgs.thought ≠ [] then
        ascii "# Below is the thought process that created the above message."
          :: splitLines (formatPlain env msgs.thought)
      else []), by simp⟩
  · rw [htail, List.count_append, List.count_append]
    have c1 : List.count scissors (m :: List.replicate j []) = 0 :=
      List.count_eq_zero.mpr (fun h => (hM _ h).2 rfl)
    have c2 : List.count scissors (scissors :: tail) = 1 := by
      rw [List.count_cons_self, List.count_eq_zero.mpr hnot]
    have c3 : List.count scissors (if msgs.thought ≠ [] then
        ascii "# Below is the thought process that created the above message."
          :: splitLines (formatPlain env msgs.thought)
      else []) = 0 :=
      List.count_eq_zero.mpr (fun h => (hT _ h).2 rfl)
    rw [c1, c2, c3]

/-- Witness of the amended C21: the commit message `feat: add X` with a
thought, with a wrapper that ends its output with a newline, as `pandoc`
does. -/
theorem makeAPICall_single_line_message_witness :
    (∀ l ∈ documentLines (makeAPICall newlineEnv exampleResponse),
        hasPrefix l (ascii "# **") = false)
      ∧ (∃ pre mid rest, documentLines (makeAPICall newlineEnv exampleResponse)
          = pre ++ ascii "feat: add X" :: (mid ++ scissors :: rest))
      ∧ (documentLines (makeAPICall newlineEnv exampleResponse)).count scissors = 1 :=
  makeAPICall_single_line_message newlineEnv exampleResponse
    (ascii "<thinkthrough>\nwhy\n</thinkthrough>\n<commit-message>\nfeat: add X\n</commit-message>")
    [] ⟨[], [], ascii "why", ascii "feat: add X"⟩ (ascii "feat: add X") 1
    (by decide) (by decide) (by decide) (by decide) (by decide) (by decide) (by decide)
    (by decide) (by decide) (by decide) (by decide) (by decide) (by decide)
    (fun _ _ => (by decide : NL ∉ ascii "0.0000")) (fun _ => by decide)

/-- A commit message of one byte is lost before the wrapper: with a wrapper
that returns its input unchanged, the document holds an empty line in place
of the message. -/
theorem makeAPICall_one_byte_message_lost :
    extractMessages (joinLines [openTag .commitMessage, ascii "x", closeTag .commitMessage])
        = some ⟨[], [], [], ascii "x"⟩
      ∧ ascii "x" ∉ documentLines (makeAPICall exampleEnv (messageResponse (ascii "x")))
      ∧ (documentLines (makeAPICall exampleEnv (messageResponse (ascii "x")))).head? = some [] := by
  decide


end CommitGPT
